import Mathlib

/-!
# Smart Internship Engine: the single-page client

A shallow embedding of `frontend/src/api.js`, `frontend/src/pages/Login.jsx`
and `frontend/src/pages/Dashboard.jsx`, and the properties of the client-side
session and recommendation workflow.

The code is JavaScript, so the embedding starts with the fragment of the
language the three files exercise: values, property reads, the string
conversion behind template literals and `String(e)`, truthiness, and
`Number.prototype.toFixed`.  A network call is an `await` on a promise the
backend settles; the settled outcome is an argument of each operation
(`Except JSVal JSVal`: rejected with a thrown value, or fulfilled with the
response's `data`), so every statement below holds for every backend.

What the Dashboard puts on screen goes through React, so the embedding also
covers what React 18 does with the elements the component builds: the key
`jsx` gives an element, the check of the children, and the reconciliation and
commit of the keyed results list.
-/

namespace Sie

/-! ## JavaScript values -/

/-- A Number value.  A finite value is `(-1)^neg * m * 2^e`, the exact value of
a binary64 (for which `m < 2^53` and `-1074 ≤ e ≤ 971`); `fin true 0 e` is `-0`. -/
inductive JSNumber where
  | nan
  | inf (neg : Bool)
  | fin (neg : Bool) (m : Nat) (e : Int)

/-- The values that reach the client: what `JSON.parse` yields for a response
body, `undefined`, and the `Error` instances that are thrown (`AxiosError`,
`TypeError`, `RangeError`), each with its `name` and `message`. -/
inductive JSVal where
  | undefined
  | null
  | bool (b : Bool)
  | num (x : JSNumber)
  | str (s : String)
  | arr (elems : List JSVal)
  | obj (props : List (String × JSVal))
  | error (name message : String)

/-- What the page is served with: the build-time setting `VITE_API_URL`
(absent when not configured), and the engine's shortest round-trip digit
string of a positive finite number `m * 2^e` (step 5 onwards of
Number::toString, which depends on binary64 rounding and which no operation of
the client inspects). -/
structure Host where
  VITE_API_URL : Option String
  shortest : Nat → Int → String

/-- Number::toString (radix 10). -/
def numberToString (H : Host) : JSNumber → String
  | .nan => "NaN"
  | .inf false => "Infinity"
  | .inf true => "-Infinity"
  | .fin neg m e =>
    if m = 0 then "0"
    else if neg then "-" ++ H.shortest m e
    else H.shortest m e

/-- A `TypeError` instance; the message texts below are the ones V8 produces. -/
def typeError (message : String) : JSVal := .error "TypeError" message

/-- Error.prototype.toString on an instance with the given `name` and `message`. -/
def errorToString (name message : String) : String :=
  if name = "" then message
  else if message = "" then name
  else name ++ ": " ++ message

/-- Whether an object has an own property `key`. -/
def hasOwn (props : List (String × JSVal)) (key : String) : Bool :=
  (props.lookup key).isSome

mutual
/-- ToString, the conversion behind a template literal and `String(v)`.
A parsed object inherits `Object.prototype.toString` unless it has an own
`toString` property, which in parsed data is never callable, and then
OrdinaryToPrimitive throws.  An array is joined with commas. -/
def ToString (H : Host) : JSVal → Except JSVal String
  | .undefined => .ok "undefined"
  | .null => .ok "null"
  | .bool true => .ok "true"
  | .bool false => .ok "false"
  | .num x => .ok (numberToString H x)
  | .str s => .ok s
  | .error name message => .ok (errorToString name message)
  | .obj props =>
    if hasOwn props "toString" then .error (typeError "Cannot convert object to primitive value")
    else .ok "[object Object]"
  | .arr elems => join H elems
/-- Array.prototype.join with the separator `,`: an `undefined` or `null`
element gives the empty string, any other element its ToString. -/
def join (H : Host) : List JSVal → Except JSVal String
  | [] => .ok ""
  | v :: rest =>
    let head : Except JSVal String :=
      match v with
      | .undefined => .ok ""
      | .null => .ok ""
      | v => ToString H v
    match head with
    | .error e => .error e
    | .ok s =>
      match rest with
      | [] => .ok s
      | _ :: _ =>
        match join H rest with
        | .error e => .error e
        | .ok t => .ok (s ++ "," ++ t)
end

/-- ToBoolean, the test of `a ? b : c` and of `a && b`. -/
def truthy : JSVal → Bool
  | .undefined => false
  | .null => false
  | .bool b => b
  | .num .nan => false
  | .num (.inf _) => true
  | .num (.fin _ m _) => m != 0
  | .str s => s != ""
  | .arr _ => true
  | .obj _ => true
  | .error _ _ => true

/-- The read `v.key`, for a key that no built-in prototype defines (so for each
of the keys the client reads: `access_token`, `job_uid`, `role`, `company`,
`required_skills`, `salary_min`, `salary_max`, `score`): the own property of
an object, `undefined` when it has none and on every other value, and a
TypeError on `undefined` and `null`. -/
def Get (v : JSVal) (key : String) : Except JSVal JSVal :=
  match v with
  | .undefined =>
    .error (typeError ("Cannot read properties of undefined (reading '" ++ key ++ "')"))
  | .null => .error (typeError ("Cannot read properties of null (reading '" ++ key ++ "')"))
  | .obj props => .ok ((props.lookup key).getD .undefined)
  | _ => .ok .undefined

/-- A parameter with a default value, `function f(p = dflt)`: the default is
taken when the argument is omitted or `undefined`, which JavaScript does not
tell apart. -/
def orDefault (arg dflt : JSVal) : JSVal :=
  match arg with
  | .undefined => dflt
  | v => v

/-- The Number value of a natural number literal such as `5` or `3`. -/
def JSVal.ofNat (n : Nat) : JSVal := .num (.fin false n 0)

/-- Number.prototype.toFixed(f) (ECMA-262 21.1.3.3).  With `|x| = p / q`:
`n` is the integer for which `n / 10^f - |x|` is closest to zero, the larger
one on a tie, that is `⌊|x| * 10^f + 1/2⌋`; its digits are padded with zeros
to `f + 1` places and split `f` places from the right. -/
def toFixed (H : Host) (x : JSNumber) (f : Nat) : Except JSVal String :=
  if 100 < f then
    .error (.error "RangeError" "toFixed() digits argument must be between 0 and 100")
  else
    match x with
    | .nan => .ok (numberToString H .nan)
    | .inf neg => .ok (numberToString H (.inf neg))
    | .fin neg m e =>
      let p := m * 2 ^ e.toNat
      let q := 2 ^ (-e).toNat
      let s := if neg ∧ m ≠ 0 then "-" else ""
      if 10 ^ 21 * q ≤ p then .ok (s ++ numberToString H (.fin false m e))
      else
        let n := (2 * p * 10 ^ f + q) / (2 * q)
        let digits := if n = 0 then ['0'] else Nat.toDigits 10 n
        if f = 0 then .ok (s ++ String.mk digits)
        else
          let k := digits.length
          let padded := if k ≤ f then List.replicate (f + 1 - k) '0' ++ digits else digits
          let k := if k ≤ f then f + 1 else k
          let a := padded.take (k - f)
          let b := padded.drop (k - f)
          .ok (s ++ String.mk a ++ "." ++ String.mk b)

/-- The call `v.toFixed(f)` on an arbitrary value: only a Number has the method. -/
def callToFixed (H : Host) (v : JSVal) (f : Nat) : Except JSVal String :=
  match v with
  | .num x => toFixed H x f
  | .undefined => .error (typeError "Cannot read properties of undefined (reading 'toFixed')")
  | .null => .error (typeError "Cannot read properties of null (reading 'toFixed')")
  | _ => .error (typeError "it.score.toFixed is not a function")

/-! ## The process: default headers, requests, navigation -/

/-- A property assignment `o[key] = value` on a string-keyed record. -/
def setProp {α : Type} (o : List (String × α)) (key : String) (value : α) : List (String × α) :=
  match o with
  | [] => [(key, value)]
  | (k, v) :: rest => if k = key then (key, value) :: rest else (k, v) :: setProp rest key value

/-- An outgoing request as handed to axios: method, URL, the `data` argument
(`undefined` for a GET) and the common default headers axios merges into it. -/
structure Request where
  method : String
  url : String
  data : JSVal
  headers : List (String × String)

/-- What the client does to the outside, in order. -/
inductive Effect where
  | request (r : Request)
  | navigate (path : String)
  | preventDefault

/-- The process-wide state: `axios.defaults.headers.common`, and the trace of
effects so far. -/
structure World where
  common : List (String × String)
  effects : List Effect

/-- The result of running a handler: how its promise settled, the component
state and the process state it leaves. -/
structure Outcome (σ : Type) where
  result : Except JSVal Unit
  view : σ
  world : World

/-- One axios call: the request leaves with the current common headers, and
the promise settles as the backend decides. -/
def axiosRequest (method url : String) (data : JSVal) (settle : Except JSVal JSVal)
    (w : World) : Except JSVal JSVal × World :=
  (settle, { w with effects := w.effects ++ [.request ⟨method, url, data, w.common⟩] })

/-! ## api.js -/

/-- `const API = import.meta.env.VITE_API_URL || "http://localhost:8000/api/v1"`. -/
def API (H : Host) : String :=
  match H.VITE_API_URL with
  | none => "http://localhost:8000/api/v1"
  | some url => if url = "" then "http://localhost:8000/api/v1" else url

/-- `login(email, password)`. -/
def login (H : Host) (email password : JSVal) (settle : Except JSVal JSVal) (w : World) :
    Except JSVal JSVal × World :=
  axiosRequest "POST" (API H ++ "/auth/login") (.obj [("email", email), ("password", password)])
    settle w

/-- `setToken(tok)`. -/
def setToken (H : Host) (tok : JSVal) (w : World) : Except JSVal Unit × World :=
  match ToString H tok with
  | .error e => (.error e, w)
  | .ok s => (.ok (), { w with common := setProp w.common "Authorization" ("Bearer " ++ s) })

/-- `listStudents()`. -/
def listStudents (H : Host) (settle : Except JSVal JSVal) (w : World) :
    Except JSVal JSVal × World :=
  axiosRequest "GET" (API H ++ "/students/") .undefined settle w

/-- `listJobs()`. -/
def listJobs (H : Host) (settle : Except JSVal JSVal) (w : World) :
    Except JSVal JSVal × World :=
  axiosRequest "GET" (API H ++ "/jobs/") .undefined settle w

/-- `recommend(client_id, student_uid, top_k=5)`. -/
def recommend (H : Host) (client_id student_uid top_k : JSVal) (settle : Except JSVal JSVal)
    (w : World) : Except JSVal JSVal × World :=
  axiosRequest "POST" (API H ++ "/recs/recommend")
    (.obj [("client_id", client_id), ("student_uid", student_uid),
      ("top_k", orDefault top_k (JSVal.ofNat 5))])
    settle w

/-- `sendFeedback(student_uid, job_uid, liked, notes="")`. -/
def sendFeedback (H : Host) (student_uid job_uid liked notes : JSVal)
    (settle : Except JSVal JSVal) (w : World) : Except JSVal JSVal × World :=
  axiosRequest "POST" (API H ++ "/feedback/submit")
    (.obj [("student_uid", student_uid), ("job_uid", job_uid), ("liked", liked),
      ("notes", orDefault notes (.str ""))])
    settle w

/-- `nav(path)`, the function `useNavigate()` returns. -/
def nav (path : String) (w : World) : World :=
  { w with effects := w.effects ++ [.navigate path] }

/-! ## pages/Login.jsx -/

/-- The state of the Login component: `email`, `password`, `err`. -/
structure Login where
  email : String
  password : String
  err : String

/-- The state the component mounts with. -/
def Login.initial : Login := ⟨"student@thesis.local", "student123", ""⟩

/-- The `catch(e)` block of `onSubmit`: `setErr(String(e))`. -/
def Login.caught (H : Host) (e : JSVal) (st : Login) (w : World) : Outcome Login :=
  match ToString H e with
  | .error e2 => ⟨.error e2, st, w⟩
  | .ok s => ⟨.ok (), { st with err := s }, w⟩

/-- `onSubmit(e)`: `e.preventDefault()`, then inside `try`, `login`, the read
of `t.access_token`, `setToken` and `nav("/dashboard")`; whatever is thrown
there goes to the `catch` block. -/
def Login.onSubmit (H : Host) (settle : Except JSVal JSVal) (st : Login) (w : World) :
    Outcome Login :=
  let w0 : World := { w with effects := w.effects ++ [.preventDefault] }
  match login H (.str st.email) (.str st.password) settle w0 with
  | (.error e, w1) => Login.caught H e st w1
  | (.ok t, w1) =>
    match Get t "access_token" with
    | .error e => Login.caught H e st w1
    | .ok tok =>
      match setToken H tok w1 with
      | (.error e, w2) => Login.caught H e st w2
      | (.ok _, w2) => ⟨.ok (), st, nav "/dashboard" w2⟩

/-- What the Login form shows of its state: the two inputs, and the error
line of `{err && <div ...>{err}</div>}`, present when `err` is truthy. -/
structure LoginView where
  email : String
  password : String
  error : Option String

/-- The render of the Login component. -/
def Login.render (st : Login) : LoginView :=
  ⟨st.email, st.password, if truthy (.str st.err) then some st.err else none⟩

/-! ## pages/Dashboard.jsx -/

/-- The state of the Dashboard component. -/
structure Dashboard where
  students : JSVal
  jobs : JSVal
  studentUid : String
  clientId : String
  items : JSVal
  msg : String

/-- The state the component mounts with. -/
def Dashboard.initial : Dashboard := ⟨.arr [], .arr [], "S1", "client_U1", .arr [], ""⟩

/-- `listStudents().then(setStudents).catch(()=>{})` once the promise settled. -/
def Dashboard.settleStudents (r : Except JSVal JSVal) (st : Dashboard) : Dashboard :=
  match r with
  | .ok data => { st with students := data }
  | .error _ => st

/-- `listJobs().then(setJobs).catch(()=>{})` once the promise settled. -/
def Dashboard.settleJobs (r : Except JSVal JSVal) (st : Dashboard) : Dashboard :=
  match r with
  | .ok data => { st with jobs := data }
  | .error _ => st

/-- The effect run on mount: both requests leave, students first, and the two
promises settle in either order (`jobsFirst`).  The effect returns nothing
and both chains end in a `catch`, so nothing is left rejected. -/
def Dashboard.mountEffect (H : Host) (students jobs : Except JSVal JSVal) (jobsFirst : Bool)
    (st : Dashboard) (w : World) : Outcome Dashboard :=
  match listStudents H students w with
  | (rs, w1) =>
    match listJobs H jobs w1 with
    | (rj, w2) =>
      if jobsFirst then ⟨.ok (), Dashboard.settleStudents rs (Dashboard.settleJobs rj st), w2⟩
      else ⟨.ok (), Dashboard.settleJobs rj (Dashboard.settleStudents rs st), w2⟩

/-- `onRec()`. -/
def Dashboard.onRec (H : Host) (settle : Except JSVal JSVal) (st : Dashboard) (w : World) :
    Outcome Dashboard :=
  let st1 : Dashboard := { st with msg := "" }
  match recommend H (.str st.clientId) (.str st.studentUid) (JSVal.ofNat 5) settle w with
  | (.error e, w1) => ⟨.error e, st1, w1⟩
  | (.ok data, w1) => ⟨.ok (), { st1 with items := data }, w1⟩

/-- `onLike(job_uid, liked)`. -/
def Dashboard.onLike (H : Host) (settle : Except JSVal JSVal) (job_uid liked : JSVal)
    (st : Dashboard) (w : World) : Outcome Dashboard :=
  match sendFeedback H (.str st.studentUid) job_uid liked
      (.str (if truthy liked then "liked" else "not matched")) settle w with
  | (.error e, w1) => ⟨.error e, st, w1⟩
  | (.ok _, w1) =>
    match ToString H job_uid with
    | .error e => ⟨.error e, st, w1⟩
    | .ok s => ⟨.ok (), { st with msg := "Feedback saved for " ++ s }, w1⟩

/-! ### What the component builds -/

/-- The children the callback of `items.map` hands to the element of one item:
the values placed in the first three lines and the text of the score line. -/
structure Entry where
  role : JSVal
  company : JSVal
  required_skills : JSVal
  salary_min : JSVal
  salary_max : JSVal
  score : String

/-- The children of the element of one item, in the order the callback
evaluates them: the reads of `role`, `company`, `required_skills`,
`salary_min`, `salary_max`, then `it.score.toFixed(3)`; the first one that
throws ends it. -/
def Dashboard.renderItem (H : Host) (it : JSVal) : Except JSVal Entry := do
  let role ← Get it "role"
  let company ← Get it "company"
  let required_skills ← Get it "required_skills"
  let salary_min ← Get it "salary_min"
  let salary_max ← Get it "salary_max"
  let score ← Get it "score"
  let text ← callToFixed H score 3
  pure ⟨role, company, required_skills, salary_min, salary_max, text⟩

/-- The key React's `jsx` gives an element: none when the `key` attribute is
`undefined`, and otherwise the string `'' + key`, which on the values here is
their ToString and throws where that throws. -/
def jsxKey (H : Host) (key : JSVal) : Except JSVal (Option String) :=
  match key with
  | .undefined => .ok none
  | v =>
    match ToString H v with
    | .error e => .error e
    | .ok s => .ok (some s)

/-- The element of one item: its key, its children, and the `job_uid` that the
`Like` and `Skip` buttons pass to `onLike`. -/
structure Element where
  key : Option String
  entry : Entry
  job_uid : JSVal

/-- The callback of `items.map`: the children are evaluated first, then
`it.job_uid` is read for the `key` attribute and `jsx` turns it into the key. -/
def Dashboard.itemElement (H : Host) (it : JSVal) : Except JSVal Element := do
  let entry ← Dashboard.renderItem H it
  let job_uid ← Get it "job_uid"
  let key ← jsxKey H job_uid
  pure ⟨key, entry, job_uid⟩

/-- `items.map(it => ...)` on the elements of an array, in order; the first
callback that throws ends it. -/
def Dashboard.renderItems (H : Host) : List JSVal → Except JSVal (List Element)
  | [] => .ok []
  | it :: rest =>
    match Dashboard.itemElement H it with
    | .error e => .error e
    | .ok element =>
      match Dashboard.renderItems H rest with
      | .error e => .error e
      | .ok elements => .ok (element :: elements)

/-! ### What React shows of it -/

/-- The Error React throws for a child that is an object (development text). -/
def invalidChild (found : String) : JSVal :=
  .error "Error" ("Objects are not valid as a React child (found: " ++ found ++
    "). If you meant to render a collection of children, use an array instead.")

mutual
/-- The text React puts in the document for a child value: a
string as it is, a number as its string, nothing for a boolean, `null` or
`undefined`, the texts of its elements for an array; an object is not a valid
child and makes the render throw. -/
def childText (H : Host) : JSVal → Except JSVal String
  | .undefined => .ok ""
  | .null => .ok ""
  | .bool _ => .ok ""
  | .num x => .ok (numberToString H x)
  | .str s => .ok s
  | .error _ _ => .error (invalidChild "[object Error]")
  | .obj props =>
    .error (invalidChild
      ("object with keys \x7b" ++ ", ".intercalate (props.map (fun kv => kv.1)) ++ "\x7d"))
  | .arr elems => childrenText H elems
/-- The texts of a list of children, one after the other. -/
def childrenText (H : Host) : List JSVal → Except JSVal String
  | [] => .ok ""
  | v :: rest =>
    match childText H v with
    | .error e => .error e
    | .ok s =>
      match childrenText H rest with
      | .error e => .error e
      | .ok t => .ok (s ++ t)
end

/-- One result as shown: the text of its four lines, and the `job_uid` its
`Like` and `Skip` buttons pass to `onLike`. -/
structure Card where
  title : String
  skills : String
  salary : String
  score : String
  job_uid : JSVal

/-- What React shows for the element of one item; its children are checked in
document order. -/
def Dashboard.card (H : Host) (el : Element) : Except JSVal Card := do
  let role ← childText H el.entry.role
  let company ← childText H el.entry.company
  let skills ← childText H el.entry.required_skills
  let lo ← childText H el.entry.salary_min
  let hi ← childText H el.entry.salary_max
  pure ⟨role ++ " @ " ++ company, "Skills: " ++ skills, "Salary: " ++ lo ++ " – " ++ hi,
    "Score: " ++ el.entry.score, el.job_uid⟩

/-- The cards of a list of elements, in order; the first invalid child ends it. -/
def Dashboard.cards (H : Host) : List Element → Except JSVal (List Card)
  | [] => .ok []
  | el :: rest =>
    match Dashboard.card H el with
    | .error e => .error e
    | .ok card =>
      match Dashboard.cards H rest with
      | .error e => .error e
      | .ok cards => .ok (card :: cards)

/-- What the Dashboard shows: whether the `No results yet.` line is there, the
result entries, and the message line of `{msg && <div ...>{msg}</div>}`. -/
structure DashboardView where
  noResults : Bool
  entries : List Card
  message : Option String

/-- What the component function returns for a state, with the children React
accepts turned into text: the elements of `items.map` (`items.length === 0`
and `items.map` are there for an array only; on any other value one of the
two throws a TypeError), then the check of their children. -/
def Dashboard.elements (H : Host) (st : Dashboard) :
    Except JSVal (List (Option String × Card)) :=
  match st.items with
  | .arr elems =>
    match Dashboard.renderItems H elems with
    | .error e => .error e
    | .ok elements =>
      match Dashboard.cards H elements with
      | .error e => .error e
      | .ok cards => .ok ((elements.map (fun el => el.key)).zip cards)
  | .undefined => .error (typeError "Cannot read properties of undefined (reading 'length')")
  | .null => .error (typeError "Cannot read properties of null (reading 'length')")
  | _ => .error (typeError "items.map is not a function")

/-- The first render of the Dashboard component in a state, into a container
that shows no result yet (as on mount): every element gets a new node, in
order.  A later render goes through `Dashboard.update`. -/
def Dashboard.render (H : Host) (st : Dashboard) : Except JSVal DashboardView :=
  match st.items with
  | .arr elems =>
    match Dashboard.renderItems H elems with
    | .error e => .error e
    | .ok elements =>
      match Dashboard.cards H elements with
      | .error e => .error e
      | .ok cards =>
        .ok ⟨elems.length == 0, cards, if truthy (.str st.msg) then some st.msg else none⟩
  | .undefined => .error (typeError "Cannot read properties of undefined (reading 'length')")
  | .null => .error (typeError "Cannot read properties of null (reading 'length')")
  | _ => .error (typeError "items.map is not a function")

/-! ### A later render: React's reconciliation of the keyed list -/

/-- A child fiber of the results list: its key and the document node it owns. -/
structure Fiber where
  key : Option String
  node : Nat

/-- The results panel as React and the document hold it between renders: the
child fibers of the list, in order (the `index` of a fiber is its position);
the child nodes of the list in the document, each with what it shows; the
next unused node number; and the two conditional lines. -/
structure Screen where
  fibers : List Fiber
  dom : List (Nat × Card)
  fresh : Nat
  noResults : Bool
  message : Option String

/-- The results panel on mount: `items` is empty and `msg` is `""`. -/
def Screen.empty : Screen := ⟨[], [], 0, true, none⟩

/-- What the user sees. -/
def Screen.view (scr : Screen) : DashboardView :=
  ⟨scr.noResults, scr.dom.map (fun n => n.2), scr.message⟩

/-- A key of the map `mapRemainingChildren` builds: the key of the fiber, or
its index when it has none. -/
inductive MapKey where
  | named (key : String)
  | index (i : Nat)
  deriving DecidableEq

/-- The map key of a child with the given key at the given index. -/
def mapKeyOf (key : Option String) (idx : Nat) : MapKey :=
  match key with
  | some k => .named k
  | none => .index idx

/-- An entry of the map of existing children: an old fiber with its index. -/
structure Existing where
  key : MapKey
  node : Nat
  index : Nat

/-- `Map.prototype.set`: an entry with the same key is replaced. -/
def mapSet (m : List Existing) (x : Existing) : List Existing :=
  match m with
  | [] => [x]
  | y :: rest => if y.key = x.key then x :: rest else y :: mapSet rest x

/-- `Map.prototype.get`. -/
def mapGet (m : List Existing) (key : MapKey) : Option Existing :=
  match m with
  | [] => none
  | y :: rest => if y.key = key then some y else mapGet rest key

/-- `Map.prototype.delete`. -/
def mapDelete (m : List Existing) (key : MapKey) : List Existing :=
  match m with
  | [] => []
  | y :: rest => if y.key = key then rest else y :: mapDelete rest key

/-- `mapRemainingChildren`: the old fibers from index `idx` on, set into the
map one after the other, so that of two fibers with one key the later one is
kept. -/
def mapRemainingChildren (olds : List Fiber) (idx : Nat) (m : List Existing) : List Existing :=
  match olds with
  | [] => m
  | f :: rest => mapRemainingChildren rest (idx + 1) (mapSet m ⟨mapKeyOf f.key idx, f.node, idx⟩)

/-- A child fiber of the new list: key, node, what the node is to show, and the
`Placement` flag (the node is new or has to move). -/
structure Placed where
  key : Option String
  node : Nat
  card : Card
  placement : Bool

/-- The last loop of `reconcileChildrenArray`: each remaining element takes
the old fiber the map has for its key, which leaves the map, or a new fiber;
`placeChild` flags a new fiber, and a reused one whose old index is below
`lastPlacedIndex`.  Returns the fibers, what is left in the map, and the next
unused node number. -/
def reconcileFromMap (m : List Existing) (elems : List (Option String × Card))
    (newIdx lastPlacedIndex fresh : Nat) : List Placed × List Existing × Nat :=
  match elems with
  | [] => ([], m, fresh)
  | (key, card) :: rest =>
    match mapGet m (mapKeyOf key newIdx) with
    | none =>
      match reconcileFromMap m rest (newIdx + 1) lastPlacedIndex (fresh + 1) with
      | (placed, left, next) => (⟨key, fresh, card, true⟩ :: placed, left, next)
    | some old =>
      if old.index < lastPlacedIndex then
        match reconcileFromMap (mapDelete m (mapKeyOf key newIdx)) rest (newIdx + 1)
            lastPlacedIndex fresh with
        | (placed, left, next) => (⟨key, old.node, card, true⟩ :: placed, left, next)
      else
        match reconcileFromMap (mapDelete m (mapKeyOf key newIdx)) rest (newIdx + 1)
            old.index fresh with
        | (placed, left, next) => (⟨key, old.node, card, false⟩ :: placed, left, next)

/-- `reconcileChildrenArray` for a list of keyed elements of one type, from
index `idx` on.  The first loop pairs old fibers and elements while their keys
agree (such a fiber stays where it is).  Then, with no element left the
remaining old fibers are deleted; with no old fiber left the remaining
elements get new fibers; otherwise the remaining old fibers go into the map,
and after the last loop what the map still holds is deleted.  Returns the new
fibers, the nodes to delete, and the next unused node number. -/
def reconcileChildrenArray (olds : List Fiber) (elems : List (Option String × Card))
    (idx lastPlacedIndex fresh : Nat) : List Placed × List Nat × Nat :=
  match olds, elems with
  | olds, [] => ([], olds.map (fun f => f.node), fresh)
  | [], elems =>
    match reconcileFromMap [] elems idx lastPlacedIndex fresh with
    | (placed, _, next) => (placed, [], next)
  | old :: olds, (key, card) :: elems =>
    if old.key = key then
      match reconcileChildrenArray olds elems (idx + 1) idx fresh with
      | (placed, deletions, next) => (⟨key, old.node, card, false⟩ :: placed, deletions, next)
    else
      match reconcileFromMap (mapRemainingChildren (old :: olds) idx []) ((key, card) :: elems)
          idx lastPlacedIndex fresh with
      | (placed, left, next) => (placed, left.map (fun x => x.node), next)

/-- `getHostSibling`: the node of the first following sibling that is not
itself flagged `Placement`. -/
def hostSibling : List Placed → Option Nat
  | [] => none
  | p :: rest => if p.placement then hostSibling rest else some p.node

/-- Puts a node right before the node `before`. -/
def insertAt (dom : List (Nat × Card)) (x : Nat × Card) (before : Nat) : List (Nat × Card) :=
  match dom with
  | [] => [x]
  | y :: rest => if y.1 = before then x :: y :: rest else y :: insertAt rest x before

/-- `insertBefore(node, before)`, or `appendChild(node)` when there is no
`before`: the node leaves the place it had, if it had one. -/
def insertBefore (dom : List (Nat × Card)) (x : Nat × Card) (before : Option Nat) :
    List (Nat × Card) :=
  match before with
  | none => dom.filter (fun y => y.1 != x.1) ++ [x]
  | some b => insertAt (dom.filter (fun y => y.1 != x.1)) x b

/-- The update of what a node shows. -/
def setContent (dom : List (Nat × Card)) (node : Nat) (card : Card) : List (Nat × Card) :=
  dom.map (fun y => if y.1 = node then (node, card) else y)

/-- The commit of the new fibers, in order: a flagged fiber has its node put
before its host sibling, or last; a fiber that stays has its node updated. -/
def commitPlacements : List Placed → List (Nat × Card) → List (Nat × Card)
  | [], dom => dom
  | p :: rest, dom =>
    if p.placement then
      commitPlacements rest (insertBefore dom (p.node, p.card) (hostSibling rest))
    else commitPlacements rest (setContent dom p.node p.card)

/-- The commit of a reconciled list: the deleted nodes leave the document,
then the new fibers are committed. -/
def commit (dom : List (Nat × Card)) (deletions : List Nat) (placed : List Placed) :
    List (Nat × Card) :=
  commitPlacements placed (dom.filter (fun y => !deletions.contains y.1))

/-- A render of the Dashboard component in state `st` over what an earlier
render left: the component function runs and the children are checked (either
may throw, and then nothing is shown any more), the results list is
reconciled against the old fibers and committed. -/
def Dashboard.update (H : Host) (st : Dashboard) (scr : Screen) : Except JSVal Screen :=
  match Dashboard.elements H st with
  | .error e => .error e
  | .ok elems =>
    match reconcileChildrenArray scr.fibers elems 0 0 scr.fresh with
    | (placed, deletions, next) =>
      .ok ⟨placed.map (fun p => ⟨p.key, p.node⟩), commit scr.dom deletions placed, next,
        elems.length == 0, if truthy (.str st.msg) then some st.msg else none⟩

/-- The screen after an `onRec` whose request was fulfilled with `data`: React
renders for `setMsg("")` when that changes `msg`, and then for
`setItems(data)`. -/
def Dashboard.afterRec (H : Host) (st : Dashboard) (data : JSVal) (scr : Screen) :
    Except JSVal Screen :=
  if st.msg = "" then Dashboard.update H { st with msg := "", items := data } scr
  else
    match Dashboard.update H { st with msg := "" } scr with
    | .error e => .error e
    | .ok scr1 => Dashboard.update H { st with msg := "", items := data } scr1

/-! ## Sequences of API operations -/

/-- One call of an operation `api.js` exports, with the outcome of its request. -/
inductive ApiCall where
  | login (email password : JSVal) (settle : Except JSVal JSVal)
  | setToken (tok : JSVal)
  | listStudents (settle : Except JSVal JSVal)
  | listJobs (settle : Except JSVal JSVal)
  | recommend (client_id student_uid top_k : JSVal) (settle : Except JSVal JSVal)
  | sendFeedback (student_uid job_uid liked notes : JSVal) (settle : Except JSVal JSVal)

/-- Whether the call is a `setToken`. -/
def ApiCall.isSetToken : ApiCall → Bool
  | .setToken _ => true
  | _ => false

/-- The process state after one call. -/
def ApiCall.run (H : Host) (c : ApiCall) (w : World) : World :=
  match c with
  | .login email password settle => (Sie.login H email password settle w).2
  | .setToken tok => (Sie.setToken H tok w).2
  | .listStudents settle => (Sie.listStudents H settle w).2
  | .listJobs settle => (Sie.listJobs H settle w).2
  | .recommend c s k settle => (Sie.recommend H c s k settle w).2
  | .sendFeedback s j l n settle => (Sie.sendFeedback H s j l n settle w).2

/-- The process state after a sequence of calls, first to last. -/
def runAll (H : Host) (calls : List ApiCall) (w : World) : World :=
  calls.foldl (fun w c => c.run H w) w

/-! ## Concrete hosts, states and data -/

/-- A host without `VITE_API_URL`, so the base is the local default.  Its
digit strings are the plain decimal digits, which is what Number::toString
gives for an integer below `2^53`; no input below converts any other finite
number to a string. -/
def localHost : Host := ⟨none, fun m e => Nat.repr (m * 2 ^ e.toNat)⟩

/-- A process that has set no header and done nothing yet. -/
def World.fresh : World := ⟨[], []⟩

/-- The magnitude of the finite Number `fin neg m e`, as a rational. -/
def magnitude (m : Nat) (e : Int) : ℚ := (m : ℚ) * 2 ^ e

/-- A well-formed recommendation item for job `uid`, with score `1/2`. -/
def sampleItem (uid : String) : JSVal :=
  .obj [("job_uid", .str uid), ("role", .str "Intern"), ("company", .str "Acme"),
    ("required_skills", .str "python"), ("salary_min", JSVal.ofNat 100),
    ("salary_max", JSVal.ofNat 200), ("score", .num (.fin false 1 (-1)))]

/-- A response with six items. -/
def sixItems : List JSVal :=
  [sampleItem "J1", sampleItem "J2", sampleItem "J3", sampleItem "J4", sampleItem "J5",
    sampleItem "J6"]

/-- A screen that shows the results `J1` and `J3` and a feedback message. -/
def shownScreen : Screen :=
  ⟨[⟨some "J1", 0⟩, ⟨some "J3", 1⟩],
    [(0, ⟨"Intern @ Acme", "Skills: python", "Salary: 100 – 200", "Score: 0.500", .str "J1"⟩),
      (1, ⟨"Intern @ Acme", "Skills: python", "Salary: 100 – 200", "Score: 0.500", .str "J3"⟩)],
    2, false, some "Feedback saved for J1"⟩

/-- The state that goes with `shownScreen`. -/
def shownState : Dashboard :=
  { Dashboard.initial with
    items := .arr [sampleItem "J1", sampleItem "J3"], msg := "Feedback saved for J1" }

/-- A value that is not an object: `undefined`, `null`, a boolean, a number
or a string. -/
def isPrimitive : JSVal → Bool
  | .undefined => true
  | .null => true
  | .bool _ => true
  | .num _ => true
  | .str _ => true
  | _ => false

/-- Follows the spec's data model (a Recommendation Item is a Job, with
`job_uid`, `role`, `company`, `required_skills`, `salary_min`, `salary_max`,
enriched with a numeric `score`): an object whose `score` is a Number and
whose other six fields are primitive values or absent. -/
def isDisplayable : JSVal → Bool
  | .obj props =>
    (match props.lookup "score" with
      | some (.num _) => true
      | _ => false) &&
    isPrimitive ((props.lookup "job_uid").getD .undefined) &&
    isPrimitive ((props.lookup "role").getD .undefined) &&
    isPrimitive ((props.lookup "company").getD .undefined) &&
    isPrimitive ((props.lookup "required_skills").getD .undefined) &&
    isPrimitive ((props.lookup "salary_min").getD .undefined) &&
    isPrimitive ((props.lookup "salary_max").getD .undefined)
  | _ => false

/-! ## Notions used in the proofs about the reconciliation -/

/-- The nodes of the fibers flagged `Placement`. -/
def placedNodes (placed : List Placed) : List Nat :=
  (placed.filter (fun p => p.placement)).map (fun p => p.node)

/-- The nodes of the fibers that stay where they are. -/
def stayNodes (placed : List Placed) : List Nat :=
  (placed.filter (fun p => !p.placement)).map (fun p => p.node)

/-- The old fibers from index `idx` on, as entries of the map. -/
def existingFrom : List Fiber → Nat → List Existing
  | [], _ => []
  | f :: rest, idx => ⟨mapKeyOf f.key idx, f.node, idx⟩ :: existingFrom rest (idx + 1)

/-- What the last loop of the reconciliation guarantees when the entries of the
map have distinct keys and nodes, are in the order of their index, and own
nodes numbered below `fresh`. -/
structure FromMapSpec (m : List Existing) (elems : List (Option String × Card))
    (last fresh : Nat) (placed : List Placed) (left : List Existing) (next : Nat) : Prop where
  elems_eq : placed.map (fun p => (p.key, p.card)) = elems
  nodup : (placed.map (fun p => p.node)).Nodup
  origin : ∀ p ∈ placed, p.node ∈ m.map (fun x => x.node) ∨ fresh ≤ p.node
  bound : ∀ p ∈ placed, p.node < next
  fresh_le : fresh ≤ next
  used : ∀ x ∈ m, x ∈ left ∨ x.node ∈ placed.map (fun p => p.node)
  left_sub : ∀ x ∈ left, x ∈ m ∧ x.node ∉ placed.map (fun p => p.node)
  order : (m.map (fun x => x.node)).filter
      (fun n => decide (n ∉ left.map (fun x => x.node) ∧ n ∉ placedNodes placed))
    = stayNodes placed
  low : ∀ x ∈ m, x.index < last → x.node ∉ stayNodes placed

/-- What the reconciliation of the list guarantees when the old fibers have
distinct keys and distinct nodes numbered below `fresh`. -/
structure ReconcileSpec (olds : List Fiber) (elems : List (Option String × Card))
    (fresh : Nat) (placed : List Placed) (deletions : List Nat) (next : Nat) : Prop where
  elems_eq : placed.map (fun p => (p.key, p.card)) = elems
  nodup : (placed.map (fun p => p.node)).Nodup
  origin : ∀ p ∈ placed, p.node ∈ olds.map (fun f => f.node) ∨ fresh ≤ p.node
  bound : ∀ p ∈ placed, p.node < next
  fresh_le : fresh ≤ next
  del_sub : ∀ n ∈ deletions, n ∈ olds.map (fun f => f.node)
  order : (olds.map (fun f => f.node)).filter
      (fun n => decide (n ∉ deletions ∧ n ∉ placedNodes placed))
    = stayNodes placed

/-- A results panel with no leftover: the fibers have distinct keys and
distinct nodes numbered below `fresh`, and the document holds exactly their
nodes, in their order. -/
def Screen.Clean (scr : Screen) : Prop :=
  (scr.fibers.filterMap (fun f => f.key)).Nodup ∧
    (scr.fibers.map (fun f => f.node)).Nodup ∧
    scr.dom.map (fun n => n.1) = scr.fibers.map (fun f => f.node) ∧
    ∀ f ∈ scr.fibers, f.node < scr.fresh

/-! ## Records -/

theorem lookup_setProp_self {α : Type} (o : List (String × α)) (key : String) (value : α) :
    (setProp o key value).lookup key = some value := by
  induction o with
  | nil => simp [setProp, List.lookup]
  | cons kv rest ih =>
    obtain ⟨k, v⟩ := kv
    by_cases h : k = key
    · simp [setProp, h, List.lookup]
    · have h2 : (key == k) = false := by
        simp only [beq_eq_false_iff_ne, ne_eq]
        exact fun e => h e.symm
      simp [setProp, h, List.lookup, h2, ih]

theorem lookup_setProp_other {α : Type} (o : List (String × α)) (key other : String) (value : α)
    (hne : other ≠ key) : (setProp o key value).lookup other = o.lookup other := by
  induction o with
  | nil =>
    have h2 : (other == key) = false := by simpa using hne
    simp [setProp, List.lookup, h2]
  | cons kv rest ih =>
    obtain ⟨k, v⟩ := kv
    by_cases h : k = key
    · subst h
      have h2 : (other == k) = false := by simpa using hne
      simp [setProp, List.lookup, h2]
    · by_cases h3 : other = k
      · subst h3
        simp [setProp, h, List.lookup]
      · have h4 : (other == k) = false := by simpa using h3
        simp [setProp, h, List.lookup, h4, ih]

/-! ## Rendering -/

theorem render_entries_of_items (H : Host) (a b : Dashboard) (h : a.items = b.items) :
    (Dashboard.render H a).map (fun v => v.entries)
      = (Dashboard.render H b).map (fun v => v.entries) := by
  unfold Dashboard.render
  rw [h]
  cases b.items <;> try rfl
  dsimp only
  generalize Dashboard.renderItems H _ = r
  cases r with
  | error e => rfl
  | ok elements =>
    dsimp only
    generalize Dashboard.cards H elements = c
    cases c <;> rfl

theorem renderItems_length (H : Host) :
    ∀ (elems : List JSVal) (elements : List Element),
      Dashboard.renderItems H elems = .ok elements → elements.length = elems.length := by
  intro elems
  induction elems with
  | nil =>
    intro elements h
    simp only [Dashboard.renderItems, Except.ok.injEq] at h
    subst h
    rfl
  | cons it rest ih =>
    intro elements h
    simp only [Dashboard.renderItems] at h
    cases h1 : Dashboard.itemElement H it with
    | error e => rw [h1] at h; cases h
    | ok element =>
      rw [h1] at h
      cases h2 : Dashboard.renderItems H rest with
      | error e => rw [h2] at h; cases h
      | ok tail =>
        rw [h2] at h
        simp only [Except.ok.injEq] at h
        subst h
        simp [ih tail h2]

theorem cards_length (H : Host) :
    ∀ (elements : List Element) (cards : List Card),
      Dashboard.cards H elements = .ok cards → cards.length = elements.length := by
  intro elements
  induction elements with
  | nil =>
    intro cards h
    simp only [Dashboard.cards, Except.ok.injEq] at h
    subst h
    rfl
  | cons el rest ih =>
    intro cards h
    simp only [Dashboard.cards] at h
    cases h1 : Dashboard.card H el with
    | error e => rw [h1] at h; cases h
    | ok card =>
      rw [h1] at h
      cases h2 : Dashboard.cards H rest with
      | error e => rw [h2] at h; cases h
      | ok tail =>
        rw [h2] at h
        simp only [Except.ok.injEq] at h
        subst h
        simp [ih tail h2]

theorem renderItems_index (H : Host) :
    ∀ (elems : List JSVal) (elements : List Element),
      Dashboard.renderItems H elems = .ok elements →
      ∀ (i : Nat) (it : JSVal), elems[i]? = some it →
        ∃ el, elements[i]? = some el ∧ Dashboard.itemElement H it = .ok el := by
  intro elems
  induction elems with
  | nil => intro elements _ i it hi; simp at hi
  | cons x rest ih =>
    intro elements h i it hi
    simp only [Dashboard.renderItems] at h
    cases h1 : Dashboard.itemElement H x with
    | error e => rw [h1] at h; cases h
    | ok element =>
      rw [h1] at h
      cases h2 : Dashboard.renderItems H rest with
      | error e => rw [h2] at h; cases h
      | ok tail =>
        rw [h2] at h
        simp only [Except.ok.injEq] at h
        subst h
        cases i with
        | zero =>
          simp only [List.getElem?_cons_zero, Option.some.injEq] at hi
          subst hi
          exact ⟨element, by simp, h1⟩
        | succ n =>
          simp only [List.getElem?_cons_succ] at hi
          obtain ⟨el, hel, hr⟩ := ih tail h2 n it hi
          exact ⟨el, by simpa using hel, hr⟩

theorem cards_index (H : Host) :
    ∀ (elements : List Element) (cards : List Card),
      Dashboard.cards H elements = .ok cards →
      ∀ (i : Nat) (el : Element), elements[i]? = some el →
        ∃ card, cards[i]? = some card ∧ Dashboard.card H el = .ok card := by
  intro elements
  induction elements with
  | nil => intro cards _ i el hi; simp at hi
  | cons x rest ih =>
    intro cards h i el hi
    simp only [Dashboard.cards] at h
    cases h1 : Dashboard.card H x with
    | error e => rw [h1] at h; cases h
    | ok card =>
      rw [h1] at h
      cases h2 : Dashboard.cards H rest with
      | error e => rw [h2] at h; cases h
      | ok tail =>
        rw [h2] at h
        simp only [Except.ok.injEq] at h
        subst h
        cases i with
        | zero =>
          simp only [List.getElem?_cons_zero, Option.some.injEq] at hi
          subst hi
          exact ⟨card, by simp, h1⟩
        | succ n =>
          simp only [List.getElem?_cons_succ] at hi
          obtain ⟨c, hc, hr⟩ := ih tail h2 n el hi
          exact ⟨c, by simpa using hc, hr⟩

theorem toFixed_three_ok (H : Host) (x : JSNumber) : ∃ text, toFixed H x 3 = .ok text := by
  cases x with
  | nan => exact ⟨_, rfl⟩
  | inf neg => exact ⟨_, rfl⟩
  | fin neg m e =>
    simp only [toFixed]
    split_ifs with h1 <;> first | exact ⟨_, rfl⟩ | exact absurd h1 (by decide)

theorem renderItem_score (H : Host) (props : List (String × JSVal)) (x : JSNumber)
    (text : String) (hs : props.lookup "score" = some (.num x))
    (ht : toFixed H x 3 = .ok text) :
    (Dashboard.renderItem H (.obj props)).map (fun en => en.score) = .ok text := by
  simp only [Dashboard.renderItem, Get, hs, Option.getD, callToFixed, ht, bind,
    Except.bind, pure, Except.pure]
  rfl

theorem childText_of_primitive (H : Host) (v : JSVal) (h : isPrimitive v = true) :
    ∃ s, childText H v = .ok s := by
  cases v <;> first | exact ⟨_, rfl⟩ | cases h

theorem jsxKey_of_primitive (H : Host) (v : JSVal) (h : isPrimitive v = true) :
    ∃ k, jsxKey H v = .ok k := by
  cases v with
  | bool b => cases b <;> exact ⟨_, rfl⟩
  | undefined => exact ⟨_, rfl⟩
  | null => exact ⟨_, rfl⟩
  | num x => exact ⟨_, rfl⟩
  | str s => exact ⟨_, rfl⟩
  | _ => cases h

theorem displayable_item (H : Host) (it : JSVal) (h : isDisplayable it = true) :
    ∃ el card, Dashboard.itemElement H it = .ok el ∧ Dashboard.card H el = .ok card := by
  cases it with
  | obj props =>
    simp only [isDisplayable, Bool.and_eq_true] at h
    obtain ⟨⟨⟨⟨⟨⟨hscore, hkey⟩, hrole⟩, hcompany⟩, hskills⟩, hlo⟩, hhi⟩ := h
    cases hs : props.lookup "score" with
    | none => rw [hs] at hscore; cases hscore
    | some v =>
      cases v with
      | num x =>
        obtain ⟨text, ht⟩ := toFixed_three_ok H x
        obtain ⟨k, hk⟩ := jsxKey_of_primitive H _ hkey
        obtain ⟨t1, h1⟩ := childText_of_primitive H _ hrole
        obtain ⟨t2, h2⟩ := childText_of_primitive H _ hcompany
        obtain ⟨t3, h3⟩ := childText_of_primitive H _ hskills
        obtain ⟨t4, h4⟩ := childText_of_primitive H _ hlo
        obtain ⟨t5, h5⟩ := childText_of_primitive H _ hhi
        refine ⟨⟨k, ⟨(props.lookup "role").getD .undefined,
          (props.lookup "company").getD .undefined,
          (props.lookup "required_skills").getD .undefined,
          (props.lookup "salary_min").getD .undefined,
          (props.lookup "salary_max").getD .undefined, text⟩,
          (props.lookup "job_uid").getD .undefined⟩,
          ⟨t1 ++ " @ " ++ t2, "Skills: " ++ t3, "Salary: " ++ t4 ++ " – " ++ t5,
            "Score: " ++ text, (props.lookup "job_uid").getD .undefined⟩, ?_, ?_⟩
        · simp only [Dashboard.itemElement, Dashboard.renderItem, Get, hs, Option.getD_some,
            callToFixed, ht, hk, bind, Except.bind, pure, Except.pure]
        · simp only [Dashboard.card, h1, h2, h3, h4, h5, bind, Except.bind, pure, Except.pure]
      | _ => rw [hs] at hscore; cases hscore
  | _ => cases h

/-- A list of items as the data model describes them can be displayed: the
elements build and their children are valid. -/
theorem displayable_items (H : Host) :
    ∀ items : List JSVal, (∀ it ∈ items, isDisplayable it = true) →
      ∃ elements cards, Dashboard.renderItems H items = .ok elements ∧
        Dashboard.cards H elements = .ok cards := by
  intro items
  induction items with
  | nil => intro _; exact ⟨[], [], rfl, rfl⟩
  | cons it rest ih =>
    intro h
    obtain ⟨el, card, h1, h2⟩ := displayable_item H it (h it (List.mem_cons_self _ _))
    obtain ⟨els, cs, h3, h4⟩ := ih (fun x hx => h x (List.mem_cons_of_mem _ hx))
    exact ⟨el :: els, card :: cs, by simp only [Dashboard.renderItems, h1, h3],
      by simp only [Dashboard.cards, h2, h4]⟩

/-! ## The default headers -/

theorem run_common_of_not_setToken (H : Host) (c : ApiCall) (h : c.isSetToken = false)
    (w : World) : (c.run H w).common = w.common := by
  cases c <;> first | rfl | cases h

theorem runAll_append (H : Host) (a b : List ApiCall) (w : World) :
    runAll H (a ++ b) w = runAll H b (runAll H a w) := by
  simp [runAll, List.foldl_append]

theorem runAll_common_of_no_setToken (H : Host) :
    ∀ (calls : List ApiCall), (∀ c ∈ calls, c.isSetToken = false) →
      ∀ w : World, (runAll H calls w).common = w.common := by
  intro calls
  induction calls with
  | nil => intro _ w; rfl
  | cons c rest ih =>
    intro h w
    have h1 := run_common_of_not_setToken H c (h c (List.mem_cons_self _ _)) w
    have h2 := ih (fun x hx => h x (List.mem_cons_of_mem _ hx)) (c.run H w)
    simp only [runAll, List.foldl_cons] at h2 ⊢
    rw [h2, h1]

theorem run_keeps_bearer (H : Host) (c : ApiCall) (w : World)
    (h : ∃ t, w.common.lookup "Authorization" = some ("Bearer " ++ t)) :
    ∃ t, (c.run H w).common.lookup "Authorization" = some ("Bearer " ++ t) := by
  by_cases hc : c.isSetToken = false
  · rw [run_common_of_not_setToken H c hc w]; exact h
  · cases c with
    | setToken tok =>
      simp only [ApiCall.run, setToken]
      cases hs : ToString H tok with
      | error e => exact h
      | ok s => exact ⟨s, lookup_setProp_self _ _ _⟩
    | _ => exact absurd rfl hc

theorem runAll_keeps_bearer (H : Host) :
    ∀ (calls : List ApiCall) (w : World),
      (∃ t, w.common.lookup "Authorization" = some ("Bearer " ++ t)) →
      ∃ t, (runAll H calls w).common.lookup "Authorization" = some ("Bearer " ++ t) := by
  intro calls
  induction calls with
  | nil => intro w h; exact h
  | cons c rest ih =>
    intro w h
    have := ih (c.run H w) (run_keeps_bearer H c w h)
    simpa only [runAll, List.foldl_cons] using this

/-! ## Decimal digits and `toFixed` -/

theorem toDigitsCore_fuel : ∀ (n fuel : Nat) (ds : List Char), n < fuel →
    Nat.toDigitsCore 10 fuel n ds = Nat.toDigits 10 n ++ ds := by
  intro n
  induction n using Nat.strong_induction_on with
  | _ n ih =>
    intro fuel ds hlt
    obtain ⟨f, rfl⟩ : ∃ f, fuel = f + 1 := ⟨fuel - 1, by omega⟩
    unfold Nat.toDigits
    rw [Nat.toDigitsCore, Nat.toDigitsCore]
    by_cases h0 : n / 10 = 0
    · simp [h0]
    · have hlt2 : n / 10 < n := Nat.div_lt_self (by omega) (by decide)
      simp only [h0, if_false]
      rw [ih (n / 10) hlt2 f _ (by omega), ih (n / 10) hlt2 n _ hlt2]
      simp

theorem toDigits_step (n : Nat) (h : 10 ≤ n) :
    Nat.toDigits 10 n = Nat.toDigits 10 (n / 10) ++ [Nat.digitChar (n % 10)] := by
  have h0 : n / 10 ≠ 0 := by omega
  have hlt2 : n / 10 < n := Nat.div_lt_self (by omega) (by decide)
  conv_lhs => unfold Nat.toDigits
  rw [Nat.toDigitsCore]
  simp only [h0, if_false]
  exact toDigitsCore_fuel (n / 10) n _ hlt2

theorem toDigits_small (n : Nat) (h : n < 10) : Nat.toDigits 10 n = [Nat.digitChar n] := by
  have h0 : n / 10 = 0 := by omega
  unfold Nat.toDigits
  rw [Nat.toDigitsCore]
  simp [h0, Nat.mod_eq_of_lt h]

theorem toDigits_split3 (n : Nat) (h : 1000 ≤ n) :
    Nat.toDigits 10 n = Nat.toDigits 10 (n / 1000) ++
      [Nat.digitChar (n / 100 % 10), Nat.digitChar (n / 10 % 10), Nat.digitChar (n % 10)] := by
  rw [toDigits_step n (by omega), toDigits_step (n / 10) (by omega),
    toDigits_step (n / 10 / 10) (by omega)]
  have h1 : n / 10 / 10 = n / 100 := by omega
  have h2 : n / 10 / 10 / 10 = n / 1000 := by omega
  rw [h2, h1]
  simp

theorem toDigits_length_pos (n : Nat) : 0 < (Nat.toDigits 10 n).length := by
  by_cases h : n < 10
  · rw [toDigits_small n h]; simp
  · rw [toDigits_step n (by omega)]; simp

/-- The padding and split of toFixed at three places. -/
theorem pad_split3 (n : Nat) :
    let digits := if n = 0 then ['0'] else Nat.toDigits 10 n
    let k := digits.length
    let padded := if k ≤ 3 then List.replicate (3 + 1 - k) '0' ++ digits else digits
    let k2 := if k ≤ 3 then 3 + 1 else k
    padded.take (k2 - 3) = Nat.toDigits 10 (n / 1000) ∧
      padded.drop (k2 - 3)
        = [Nat.digitChar (n / 100 % 10), Nat.digitChar (n / 10 % 10), Nat.digitChar (n % 10)] := by
  intro digits k padded k2
  have hd : digits = Nat.toDigits 10 n := by
    by_cases h0 : n = 0
    · subst h0; rfl
    · simp only [digits, h0, if_false]
  by_cases h1 : n < 10
  · have e1 : n / 1000 = 0 := by omega
    have e2 : n / 100 % 10 = 0 := by omega
    have e3 : n / 10 % 10 = 0 := by omega
    have e4 : n % 10 = n := by omega
    have hD : digits = [Nat.digitChar n] := by rw [hd, toDigits_small n h1]
    simp only [padded, k2, k, hD, e1, e2, e3, e4]
    exact ⟨rfl, rfl⟩
  · by_cases h2 : n < 100
    · have e1 : n / 1000 = 0 := by omega
      have e2 : n / 100 % 10 = 0 := by omega
      have e3 : n / 10 % 10 = n / 10 := by omega
      have hD : digits = [Nat.digitChar (n / 10), Nat.digitChar (n % 10)] := by
        rw [hd, toDigits_step n (by omega), toDigits_small (n / 10) (by omega)]; rfl
      simp only [padded, k2, k, hD, e1, e2, e3]
      exact ⟨rfl, rfl⟩
    · by_cases h3 : n < 1000
      · have e1 : n / 1000 = 0 := by omega
        have e2 : n / 100 % 10 = n / 100 := by omega
        have e5 : n / 10 / 10 = n / 100 := by omega
        have hD : digits
            = [Nat.digitChar (n / 100), Nat.digitChar (n / 10 % 10), Nat.digitChar (n % 10)] := by
          rw [hd, toDigits_step n (by omega), toDigits_step (n / 10) (by omega),
            toDigits_small (n / 10 / 10) (by omega), e5]; rfl
        simp only [padded, k2, k, hD, e1, e2]
        exact ⟨rfl, rfl⟩
      · have hD : digits = Nat.toDigits 10 (n / 1000) ++
            [Nat.digitChar (n / 100 % 10), Nat.digitChar (n / 10 % 10), Nat.digitChar (n % 10)] := by
          rw [hd, toDigits_split3 n (by omega)]
        have hpos := toDigits_length_pos (n / 1000)
        have hk : k = (Nat.toDigits 10 (n / 1000)).length + 3 := by
          simp only [k, hD, List.length_append, List.length_cons, List.length_nil]
        have hk3 : ¬ k ≤ 3 := by omega
        simp only [padded, k2, hk3, if_false]
        rw [hk, Nat.add_sub_cancel, hD]
        exact ⟨List.take_left' rfl, List.drop_left' rfl⟩

theorem magnitude_eq (m : Nat) (e : Int) :
    magnitude m e = ((m * 2 ^ e.toNat : ℕ) : ℚ) / ((2 ^ (-e).toNat : ℕ) : ℚ) := by
  cases e with
  | ofNat k =>
    have h1 : (Int.ofNat k).toNat = k := rfl
    have h2 : (-(Int.ofNat k)).toNat = 0 := by
      cases k <;> rfl
    rw [h1, h2]
    simp [magnitude]
  | negSucc k =>
    have h1 : (Int.negSucc k).toNat = 0 := rfl
    have h2 : (-(Int.negSucc k)).toNat = k + 1 := rfl
    rw [h1, h2]
    simp only [magnitude, zpow_negSucc, pow_zero, mul_one, Nat.cast_pow, Nat.cast_ofNat]
    rw [div_eq_mul_inv]

theorem round_eq (p q : Nat) (hq : 0 < q) :
    ⌊(p : ℚ) / q * 1000 + 1 / 2⌋₊ = (2 * p * 10 ^ 3 + q) / (2 * q) := by
  have hq2 : (q : ℚ) ≠ 0 := by exact_mod_cast hq.ne'
  have h : (p : ℚ) / q * 1000 + 1 / 2 = ((2 * p * 10 ^ 3 + q : ℕ) : ℚ) / ((2 * q : ℕ) : ℚ) := by
    push_cast
    field_simp
    ring
  rw [h, Nat.floor_div_eq_div]

theorem toFixed_three (H : Host) (neg : Bool) (m : Nat) (e : Int)
    (hlt : magnitude m e < 10 ^ 21) :
    ∃ n : Nat, n = ⌊magnitude m e * 1000 + 1 / 2⌋₊ ∧
      |(n : ℚ) / 1000 - magnitude m e| ≤ 1 / 2000 ∧
      toFixed H (.fin neg m e) 3
        = .ok ((if neg ∧ m ≠ 0 then "-" else "") ++ Nat.repr (n / 1000) ++ "." ++
            String.mk [Nat.digitChar (n / 100 % 10), Nat.digitChar (n / 10 % 10),
              Nat.digitChar (n % 10)]) := by
  have hq : 0 < 2 ^ (-e).toNat := Nat.pow_pos (by decide)
  have hmag := magnitude_eq m e
  have hnn : (0 : ℚ) ≤ magnitude m e := by
    rw [hmag]; positivity
  refine ⟨(2 * (m * 2 ^ e.toNat) * 10 ^ 3 + 2 ^ (-e).toNat) / (2 * 2 ^ (-e).toNat), ?_, ?_, ?_⟩
  · rw [hmag, round_eq _ _ hq]
  · rw [← round_eq _ _ hq, ← hmag]
    have h1 := Nat.floor_le (show (0 : ℚ) ≤ magnitude m e * 1000 + 1 / 2 by positivity)
    have h2 := Nat.lt_floor_add_one (magnitude m e * 1000 + 1 / 2)
    rw [abs_le]
    constructor <;> linarith
  · have hbig : ¬ (10 ^ 21 * 2 ^ (-e).toNat ≤ m * 2 ^ e.toNat) := by
      intro hle
      have hq2 : (0 : ℚ) < ((2 ^ (-e).toNat : ℕ) : ℚ) := by exact_mod_cast hq
      rw [hmag, div_lt_iff₀ hq2] at hlt
      have : ((10 ^ 21 * 2 ^ (-e).toNat : ℕ) : ℚ) ≤ ((m * 2 ^ e.toNat : ℕ) : ℚ) := by
        exact_mod_cast hle
      push_cast at this hlt
      linarith
    obtain ⟨ha, hb⟩ := pad_split3
      ((2 * (m * 2 ^ e.toNat) * 10 ^ 3 + 2 ^ (-e).toNat) / (2 * 2 ^ (-e).toNat))
    simp only [toFixed, show ¬ (100 < 3) by decide, if_false, hbig,
      show ¬ (3 = 0) by decide]
    simp only at ha hb
    rw [ha, hb]
    rfl

/-- From `10^21` on, `toFixed` gives the sign and the ordinary digit string of
the Number, whatever the number of places asked for. -/
theorem toFixed_large (H : Host) (neg : Bool) (m : Nat) (e : Int)
    (hge : (10 : ℚ) ^ 21 ≤ magnitude m e) :
    toFixed H (.fin neg m e) 3 = .ok ((if neg then "-" else "") ++ H.shortest m e) := by
  have hq : 0 < 2 ^ (-e).toNat := Nat.pow_pos (by decide)
  have hq2 : (0 : ℚ) < ((2 ^ (-e).toNat : ℕ) : ℚ) := by exact_mod_cast hq
  have hbig : 10 ^ 21 * 2 ^ (-e).toNat ≤ m * 2 ^ e.toNat := by
    rw [magnitude_eq, le_div_iff₀ hq2] at hge
    exact_mod_cast hge
  have hm : m ≠ 0 := by
    intro h0
    subst h0
    simp only [zero_mul, Nat.le_zero_eq] at hbig
    have : 0 < 10 ^ 21 * 2 ^ (-e).toNat := Nat.mul_pos (by decide) hq
    omega
  simp only [toFixed, show ¬ (100 < 3) by decide, if_false, hbig, if_true, numberToString, hm]
  cases neg <;> simp [hm]

/-! ## The commit of a reconciled list -/

theorem hostSibling_eq_head (placed : List Placed) :
    hostSibling placed = (stayNodes placed).head? := by
  induction placed with
  | nil => rfl
  | cons p rest ih =>
    cases hp : p.placement <;> simp [hostSibling, stayNodes, hp] 
    simpa [stayNodes] using ih

theorem insertAt_filter (q : Nat → Bool) (x : Nat × Card) (b : Nat) (c : Card) (hx : q x.1 = true) :
    ∀ (dom A B : List (Nat × Card)), dom.filter (fun y => q y.1) = A ++ (b, c) :: B →
      (∀ y ∈ A, y.1 ≠ b) →
      (insertAt dom x b).filter (fun y => q y.1) = A ++ x :: (b, c) :: B := by
  intro dom
  induction dom with
  | nil => intro A B h; simp at h
  | cons y rest ih =>
    intro A B h hA
    by_cases hy : y.1 = b
    · have hqb : q b = true := by
        have hmem : (b, c) ∈ (y :: rest).filter (fun y => q y.1) := by rw [h]; simp
        simpa using (List.mem_filter.mp hmem).2
      have hqy : q y.1 = true := by rw [hy]; exact hqb
      simp only [List.filter_cons, hqy, if_true] at h
      cases A with
      | nil =>
        simp only [List.nil_append, List.cons.injEq] at h
        simp [insertAt, hy, List.filter_cons, hx, hqb, h.2, ← h.1]
      | cons a A' =>
        simp only [List.cons_append, List.cons.injEq] at h
        exact absurd (by rw [← h.1]; exact hy) (hA a (List.mem_cons_self _ _))
    · simp only [insertAt, hy, if_false]
      by_cases hqy : q y.1 = true
      · simp only [List.filter_cons, hqy, if_true] at h ⊢
        cases A with
        | nil =>
          simp only [List.nil_append, List.cons.injEq] at h
          exact absurd (by rw [h.1]) hy
        | cons a A' =>
          simp only [List.cons_append, List.cons.injEq] at h
          rw [ih A' B h.2 (fun z hz => hA z (List.mem_cons_of_mem _ hz)), h.1]
          rfl
      · simp only [List.filter_cons, hqy] at h ⊢
        simp only [Bool.false_eq_true, if_false] at h ⊢
        exact ih A B h hA

theorem mem_of_mem_stayNodes (placed : List Placed) (n : Nat) (h : n ∈ stayNodes placed) :
    n ∈ placed.map (fun p => p.node) := by
  simp only [stayNodes, List.mem_map, List.mem_filter] at h ⊢
  obtain ⟨p, ⟨hp, _⟩, rfl⟩ := h
  exact ⟨p, hp, rfl⟩

theorem mem_of_mem_placedNodes (placed : List Placed) (n : Nat) (h : n ∈ placedNodes placed) :
    n ∈ placed.map (fun p => p.node) := by
  simp only [placedNodes, List.mem_map, List.mem_filter] at h ⊢
  obtain ⟨p, ⟨hp, _⟩, rfl⟩ := h
  exact ⟨p, hp, rfl⟩

theorem setContent_of_not_mem (node : Nat) (card : Card) :
    ∀ dom : List (Nat × Card), node ∉ dom.map (fun y => y.1) → setContent dom node card = dom := by
  intro dom
  induction dom with
  | nil => intro _; rfl
  | cons y rest ih =>
    intro h
    simp only [List.map_cons, List.mem_cons, not_or] at h
    have hy : ¬ y.1 = node := fun e => h.1 e.symm
    have := ih h.2
    simp only [setContent] at this ⊢
    simp [hy, this]

theorem setContent_filter (q : Nat → Bool) (node : Nat) (card : Card) :
    ∀ dom : List (Nat × Card),
      (setContent dom node card).filter (fun y => q y.1)
        = setContent (dom.filter (fun y => q y.1)) node card := by
  intro dom
  induction dom with
  | nil => rfl
  | cons y rest ih =>
    simp only [setContent] at ih ⊢
    by_cases hy : y.1 = node
    · by_cases hq : q y.1 = true
      · have hq2 : q node = true := by rw [← hy]; exact hq
        simp [List.filter_cons, hy, hq, hq2, ih]
      · have hq2 : ¬ q node = true := by rw [← hy]; exact hq
        simp [List.filter_cons, hy, hq, hq2, ih]
    · by_cases hq : q y.1 = true
      · simp [List.filter_cons, hy, hq, ih]
      · simp [List.filter_cons, hy, hq, ih]

theorem setContent_append (node : Nat) (card : Card) (a b : List (Nat × Card)) :
    setContent (a ++ b) node card = setContent a node card ++ setContent b node card := by
  simp [setContent]

theorem commitPlacements_spec :
    ∀ (todo done : List Placed) (d old : List (Nat × Card)),
      ((done ++ todo).map (fun p => p.node)).Nodup →
      old.map (fun y => y.1) = stayNodes todo →
      d.filter (fun y => !(placedNodes todo).contains y.1)
        = done.map (fun p => (p.node, p.card)) ++ old →
      commitPlacements todo d = (done ++ todo).map (fun p => (p.node, p.card)) := by
  intro todo
  induction todo with
  | nil =>
    intro done d old _ hold hd
    have h0 : old = [] := by simpa [stayNodes] using hold
    subst h0
    simpa [placedNodes, commitPlacements] using hd
  | cons p rest ih =>
    intro done d old hnd hold hd
    have hnd2 : (((done ++ [p]) ++ rest).map (fun p => p.node)).Nodup := by
      simpa [List.append_assoc] using hnd
    have hsplit : (done ++ p :: rest) = (done ++ [p]) ++ rest := by simp
    have hpdone : p.node ∉ done.map (fun p => p.node) := by
      intro hmem
      rw [List.map_append, List.nodup_append] at hnd
      exact hnd.2.2 hmem (by simp)
    have hprest : p.node ∉ rest.map (fun p => p.node) := by
      rw [List.map_append, List.nodup_append] at hnd
      have := hnd.2.1
      simp only [List.map_cons, List.nodup_cons] at this
      exact this.1
    have hdisj : ∀ n, n ∈ done.map (fun p => p.node) → n ∉ rest.map (fun p => p.node) := by
      intro n hn hr
      rw [List.map_append, List.nodup_append] at hnd
      exact hnd.2.2 hn (by simp [hr])
    rw [hsplit]
    cases hp : p.placement with
    | false =>
      have hstay : stayNodes (p :: rest) = p.node :: stayNodes rest := by
        simp [stayNodes, hp]
      have hplaced : placedNodes (p :: rest) = placedNodes rest := by
        simp [placedNodes, hp]
      rw [hstay] at hold
      rw [hplaced] at hd
      cases old with
      | nil => simp at hold
      | cons o old2 =>
        simp only [List.map_cons, List.cons.injEq] at hold
        simp only [commitPlacements, hp, Bool.false_eq_true, if_false]
        apply ih (done ++ [p]) _ old2 hnd2 hold.2
        rw [setContent_filter (fun n => !(placedNodes rest).contains n), hd, setContent_append]
        have h1 : setContent (done.map (fun p => (p.node, p.card))) p.node p.card
            = done.map (fun p => (p.node, p.card)) := by
          apply setContent_of_not_mem
          simpa [List.map_map] using hpdone
        have h2 : setContent old2 p.node p.card = old2 := by
          apply setContent_of_not_mem
          rw [hold.2]
          exact fun h => hprest (mem_of_mem_stayNodes _ _ h)
        rw [h1]
        obtain ⟨o1, o2⟩ := o
        simp only at hold
        simp only [setContent, List.map_cons] at h2 ⊢
        simp [hold.1, h2]
    | true =>
      have hstay : stayNodes (p :: rest) = stayNodes rest := by
        simp [stayNodes, hp]
      have hplaced : placedNodes (p :: rest) = p.node :: placedNodes rest := by
        simp [placedNodes, hp]
      rw [hstay] at hold
      rw [hplaced] at hd
      have hpnot : p.node ∉ placedNodes rest := fun h => hprest (mem_of_mem_placedNodes _ _ h)
      have hpq : (!(placedNodes rest).contains p.node) = true := by
        simpa using hpnot
      have hd1 : (d.filter (fun y => y.1 != p.node)).filter
          (fun y => !(placedNodes rest).contains y.1)
          = done.map (fun p => (p.node, p.card)) ++ old := by
        rw [← hd, List.filter_filter]
        congr 1
        funext y
        rw [List.contains_cons]
        by_cases hy : y.1 = p.node
        · simp [hy]
        · have hne : (y.1 == p.node) = false := by simpa using hy
          have hne2 : (y.1 != p.node) = true := by simpa using hy
          rw [hne, hne2]
          cases (placedNodes rest).contains y.1 <;> rfl
      simp only [commitPlacements, hp, if_true]
      apply ih (done ++ [p]) _ old hnd2 hold
      rw [hostSibling_eq_head, ← hold]
      cases old with
      | nil =>
        simp only [List.map_nil, List.head?_nil, insertBefore]
        rw [List.filter_append, hd1]
        simp [List.filter_cons, hpnot]
      | cons o old2 =>
        obtain ⟨b, c⟩ := o
        simp only [List.map_cons, List.head?_cons, insertBefore]
        rw [insertAt_filter (fun n => !(placedNodes rest).contains n) (p.node, p.card) b c hpq _ _ _ hd1]
        · simp
        · intro y hy hyb
          simp only [List.mem_map] at hy
          obtain ⟨q, hq, rfl⟩ := hy
          have hb : b ∈ stayNodes rest := by rw [← hold]; simp
          exact hdisj b (by simp only at hyb; rw [← hyb]; exact List.mem_map_of_mem _ hq)
            (mem_of_mem_stayNodes _ _ hb)

/-- The document after a commit shows the new fibers, in their order, when the
nodes that stay are, in that order, what is left of the old document once the
nodes to move are taken out. -/
theorem commitPlacements_eq (placed : List Placed) (d : List (Nat × Card))
    (hnd : (placed.map (fun p => p.node)).Nodup)
    (hd : (d.map (fun y => y.1)).filter (fun n => !(placedNodes placed).contains n)
      = stayNodes placed) :
    commitPlacements placed d = placed.map (fun p => (p.node, p.card)) := by
  have := commitPlacements_spec placed [] d
    (d.filter (fun y => !(placedNodes placed).contains y.1)) (by simpa using hnd)
    (by rw [← hd]; simp [List.filter_map, Function.comp_def]) (by simp)
  simpa using this

/-! ## The reconciliation of a list with distinct keys -/

theorem mapSet_of_not_mem (x : Existing) :
    ∀ m : List Existing, x.key ∉ m.map (fun y => y.key) → mapSet m x = m ++ [x] := by
  intro m
  induction m with
  | nil => intro _; rfl
  | cons y rest ih =>
    intro h
    simp only [List.map_cons, List.mem_cons, not_or] at h
    have hy : ¬ y.key = x.key := fun e => h.1 e.symm
    simp [mapSet, hy, ih h.2]

theorem existingFrom_nodes :
    ∀ (olds : List Fiber) (idx : Nat),
      (existingFrom olds idx).map (fun x => x.node) = olds.map (fun f => f.node) := by
  intro olds
  induction olds with
  | nil => intro idx; rfl
  | cons f rest ih => intro idx; simp [existingFrom, ih]

theorem existingFrom_index_ge :
    ∀ (olds : List Fiber) (idx : Nat) (x : Existing), x ∈ existingFrom olds idx → idx ≤ x.index := by
  intro olds
  induction olds with
  | nil => intro idx x h; simp [existingFrom] at h
  | cons f rest ih =>
    intro idx x h
    simp only [existingFrom, List.mem_cons] at h
    rcases h with rfl | h
    · exact Nat.le_refl _
    · exact Nat.le_of_succ_le (ih (idx + 1) x h)

theorem existingFrom_sorted :
    ∀ (olds : List Fiber) (idx : Nat),
      (existingFrom olds idx).Pairwise (fun a b => a.index < b.index) := by
  intro olds
  induction olds with
  | nil => intro idx; exact List.Pairwise.nil
  | cons f rest ih =>
    intro idx
    simp only [existingFrom, List.pairwise_cons]
    exact ⟨fun x hx => existingFrom_index_ge rest (idx + 1) x hx, ih (idx + 1)⟩

theorem existingFrom_key :
    ∀ (olds : List Fiber) (idx : Nat) (x : Existing), x ∈ existingFrom olds idx →
      (∃ k, x.key = .named k ∧ k ∈ olds.filterMap (fun f => f.key)) ∨
        (∃ i, x.key = .index i ∧ idx ≤ i) := by
  intro olds
  induction olds with
  | nil => intro idx x h; simp [existingFrom] at h
  | cons f rest ih =>
    intro idx x h
    simp only [existingFrom, List.mem_cons] at h
    rcases h with rfl | h
    · cases hk : f.key with
      | none => exact Or.inr ⟨idx, by simp [mapKeyOf], Nat.le_refl _⟩
      | some k => exact Or.inl ⟨k, by simp [mapKeyOf], by simp [List.filterMap_cons, hk]⟩
    · rcases ih (idx + 1) x h with ⟨k, hk, hmem⟩ | ⟨i, hi, hle⟩
      · refine Or.inl ⟨k, hk, ?_⟩
        cases hf : f.key <;> simp [List.filterMap_cons, hf, hmem]
      · exact Or.inr ⟨i, hi, Nat.le_of_succ_le hle⟩

theorem existingFrom_keys_nodup :
    ∀ (olds : List Fiber) (idx : Nat), (olds.filterMap (fun f => f.key)).Nodup →
      ((existingFrom olds idx).map (fun x => x.key)).Nodup := by
  intro olds
  induction olds with
  | nil => intro idx _; exact List.nodup_nil
  | cons f rest ih =>
    intro idx h
    simp only [existingFrom, List.map_cons, List.nodup_cons]
    have hrest : (rest.filterMap (fun f => f.key)).Nodup := by
      cases hf : f.key with
      | none => simpa [List.filterMap_cons, hf] using h
      | some k =>
        rw [List.filterMap_cons, hf] at h
        exact (List.nodup_cons.mp h).2
    refine ⟨?_, ih (idx + 1) hrest⟩
    intro hmem
    simp only [List.mem_map] at hmem
    obtain ⟨x, hx, hxk⟩ := hmem
    rcases existingFrom_key rest (idx + 1) x hx with ⟨k, hk, hkm⟩ | ⟨i, hi, hle⟩
    · cases hf : f.key with
      | none => rw [hk, hf] at hxk; simp [mapKeyOf] at hxk
      | some k2 =>
        rw [hk, hf] at hxk
        simp only [mapKeyOf, MapKey.named.injEq] at hxk
        rw [List.filterMap_cons, hf] at h
        exact (List.nodup_cons.mp h).1 (hxk ▸ hkm)
    · cases hf : f.key with
      | none =>
        rw [hi, hf] at hxk
        simp only [mapKeyOf, MapKey.index.injEq] at hxk
        omega
      | some k2 => rw [hi, hf] at hxk; simp [mapKeyOf] at hxk

theorem mapRemainingChildren_eq :
    ∀ (olds : List Fiber) (idx : Nat) (m : List Existing),
      ((m ++ existingFrom olds idx).map (fun x => x.key)).Nodup →
      mapRemainingChildren olds idx m = m ++ existingFrom olds idx := by
  intro olds
  induction olds with
  | nil => intro idx m _; simp [mapRemainingChildren, existingFrom]
  | cons f rest ih =>
    intro idx m h
    simp only [mapRemainingChildren, existingFrom]
    have hnot : (⟨mapKeyOf f.key idx, f.node, idx⟩ : Existing).key ∉ m.map (fun y => y.key) := by
      intro hmem
      simp only [existingFrom, List.map_append, List.map_cons] at h
      rw [List.nodup_append] at h
      exact h.2.2 hmem (by simp)
    rw [mapSet_of_not_mem _ m hnot, ih (idx + 1)]
    · simp
    · simpa [existingFrom, List.append_assoc] using h

theorem mapGet_split :
    ∀ (m : List Existing) (key : MapKey) (old : Existing), mapGet m key = some old →
      ∃ pre post, m = pre ++ old :: post ∧ old.key = key ∧ mapDelete m key = pre ++ post := by
  intro m
  induction m with
  | nil => intro key old h; simp [mapGet] at h
  | cons y rest ih =>
    intro key old h
    by_cases hy : y.key = key
    · simp only [mapGet, hy, if_true, Option.some.injEq] at h
      subst h
      exact ⟨[], rest, rfl, hy, by simp [mapDelete, hy]⟩
    · simp only [mapGet, hy, if_false] at h
      obtain ⟨pre, post, hm, hk, hd⟩ := ih key old h
      exact ⟨y :: pre, post, by simp [hm], hk, by simp [mapDelete, hy, hd]⟩

theorem mem_stay_or_placed (placed : List Placed) (n : Nat)
    (h : n ∈ placed.map (fun p => p.node)) : n ∈ stayNodes placed ∨ n ∈ placedNodes placed := by
  simp only [List.mem_map] at h
  obtain ⟨p, hp, rfl⟩ := h
  cases hpl : p.placement with
  | true => exact Or.inr (by simp only [placedNodes, List.mem_map, List.mem_filter]; exact ⟨p, ⟨hp, hpl⟩, rfl⟩)
  | false =>
    exact Or.inl (by
      simp only [stayNodes, List.mem_map, List.mem_filter]
      exact ⟨p, ⟨hp, by simp [hpl]⟩, rfl⟩)

theorem reconcileFromMap_spec :
    ∀ (elems : List (Option String × Card)) (m : List Existing) (newIdx last fresh : Nat),
      (m.map (fun x => x.key)).Nodup → (m.map (fun x => x.node)).Nodup →
      m.Pairwise (fun a b => a.index < b.index) → (∀ x ∈ m, x.node < fresh) →
      FromMapSpec m elems last fresh (reconcileFromMap m elems newIdx last fresh).1
        (reconcileFromMap m elems newIdx last fresh).2.1
        (reconcileFromMap m elems newIdx last fresh).2.2 := by
  intro elems
  induction elems with
  | nil =>
    intro m newIdx last fresh _ _ _ _
    simp only [reconcileFromMap]
    refine ⟨rfl, List.nodup_nil, ?_, ?_, Nat.le_refl _, fun x hx => Or.inl hx,
      fun x hx => ⟨hx, by simp⟩, ?_, ?_⟩
    · intro p hp; simp at hp
    · intro p hp; simp at hp
    · simp [stayNodes, placedNodes]
    · intro x _ _; simp [stayNodes]
  | cons e rest ih =>
    intro m newIdx last fresh hkeys hnodes hsorted hbound
    obtain ⟨key, card⟩ := e
    cases hget : mapGet m (mapKeyOf key newIdx) with
    | none =>
      have IH := ih m (newIdx + 1) last (fresh + 1) hkeys hnodes hsorted
        (fun x hx => Nat.lt_succ_of_lt (hbound x hx))
      simp only [reconcileFromMap, hget]
      generalize reconcileFromMap m rest (newIdx + 1) last (fresh + 1) = r at IH
      obtain ⟨placed, left, next⟩ := r
      simp only at IH ⊢
      have hfresh : fresh ∉ placed.map (fun p => p.node) := by
        intro hmem
        simp only [List.mem_map] at hmem
        obtain ⟨p, hp, hpn⟩ := hmem
        rcases IH.origin p hp with h1 | h1
        · simp only [List.mem_map] at h1
          obtain ⟨x, hx, hxn⟩ := h1
          have := hbound x hx
          omega
        · omega
      refine ⟨?_, ?_, ?_, ?_, ?_, ?_, ?_, ?_, ?_⟩
      · simp [IH.elems_eq]
      · simp only [List.map_cons, List.nodup_cons]
        exact ⟨hfresh, IH.nodup⟩
      · intro p hp
        simp only [List.mem_cons] at hp
        rcases hp with rfl | hp
        · exact Or.inr (Nat.le_refl _)
        · rcases IH.origin p hp with h1 | h1
          · exact Or.inl h1
          · exact Or.inr (Nat.le_of_succ_le h1)
      · intro p hp
        simp only [List.mem_cons] at hp
        rcases hp with rfl | hp
        · exact IH.fresh_le
        · exact IH.bound p hp
      · exact Nat.le_of_succ_le IH.fresh_le
      · intro x hx
        rcases IH.used x hx with h1 | h1
        · exact Or.inl h1
        · exact Or.inr (by simp [h1])
      · intro x hx
        refine ⟨(IH.left_sub x hx).1, ?_⟩
        simp only [List.map_cons, List.mem_cons, not_or]
        refine ⟨?_, (IH.left_sub x hx).2⟩
        have := hbound x (IH.left_sub x hx).1
        omega
      · have hst : stayNodes (⟨key, fresh, card, true⟩ :: placed) = stayNodes placed := by
          simp [stayNodes]
        have hpl : placedNodes (⟨key, fresh, card, true⟩ :: placed) = fresh :: placedNodes placed := by
          simp [placedNodes]
        rw [hst, hpl, ← IH.order]
        apply List.filter_congr
        intro n hn
        have hne : n ≠ fresh := by
          simp only [List.mem_map] at hn
          obtain ⟨x, hx, rfl⟩ := hn
          have := hbound x hx
          omega
        simp [hne]
      · intro x hx hlt
        have hst : stayNodes (⟨key, fresh, card, true⟩ :: placed) = stayNodes placed := by
          simp [stayNodes]
        rw [hst]
        exact IH.low x hx hlt
    | some old =>
      obtain ⟨pre, post, hm, hk, hdel⟩ := mapGet_split m _ old hget
      have hsub : (pre ++ post).Sublist m := by
        rw [hm]
        exact List.Sublist.append (List.Sublist.refl pre) (List.sublist_cons_self old post)
      have hkeys1 : ((pre ++ post).map (fun x => x.key)).Nodup :=
        List.Nodup.sublist (List.Sublist.map _ hsub) hkeys
      have hnodes1 : ((pre ++ post).map (fun x => x.node)).Nodup :=
        List.Nodup.sublist (List.Sublist.map _ hsub) hnodes
      have hsorted1 : (pre ++ post).Pairwise (fun a b => a.index < b.index) :=
        List.Pairwise.sublist hsub hsorted
      have hbound1 : ∀ x ∈ pre ++ post, x.node < fresh := fun x hx => hbound x (hsub.subset hx)
      have holdm : old ∈ m := by rw [hm]; simp
      have hold1 : old.node ∉ (pre ++ post).map (fun x => x.node) := by
        intro hmem
        rw [hm, List.map_append, List.map_cons] at hnodes
        have h1 := List.nodup_append.mp hnodes
        have h2 := (List.nodup_cons.mp h1.2.1).1
        simp only [List.map_append, List.mem_append] at hmem
        rcases hmem with h3 | h3
        · exact h1.2.2 h3 (by simp)
        · exact h2 h3
      have hpre : ∀ y ∈ pre, y.index < old.index := by
        intro y hy
        rw [hm, List.pairwise_append] at hsorted
        exact hsorted.2.2 y hy old (by simp)
      have hmem1 : ∀ x ∈ m, x = old ∨ x ∈ pre ++ post := by
        intro x hx
        rw [hm] at hx
        simp only [List.mem_append, List.mem_cons] at hx ⊢
        tauto
      by_cases hlt : old.index < last
      · have IH := ih (pre ++ post) (newIdx + 1) last fresh hkeys1 hnodes1 hsorted1 hbound1
        simp only [reconcileFromMap, hget, hlt, if_true, hdel]
        generalize reconcileFromMap (pre ++ post) rest (newIdx + 1) last fresh = r at IH
        obtain ⟨placed, left, next⟩ := r
        simp only at IH ⊢
        have hnot : old.node ∉ placed.map (fun p => p.node) := by
          intro hmem
          simp only [List.mem_map] at hmem
          obtain ⟨p, hp, hpn⟩ := hmem
          rcases IH.origin p hp with h1 | h1
          · exact hold1 (hpn ▸ h1)
          · have := hbound old holdm
            omega
        have hst : stayNodes (⟨key, old.node, card, true⟩ :: placed) = stayNodes placed := by
          simp [stayNodes]
        have hpl : placedNodes (⟨key, old.node, card, true⟩ :: placed)
            = old.node :: placedNodes placed := by
          simp [placedNodes]
        refine ⟨?_, ?_, ?_, ?_, IH.fresh_le, ?_, ?_, ?_, ?_⟩
        · simp [IH.elems_eq]
        · simp only [List.map_cons, List.nodup_cons]
          exact ⟨hnot, IH.nodup⟩
        · intro p hp
          simp only [List.mem_cons] at hp
          rcases hp with rfl | hp
          · exact Or.inl (List.mem_map_of_mem _ holdm)
          · rcases IH.origin p hp with h1 | h1
            · exact Or.inl ((List.Sublist.map _ hsub).subset h1)
            · exact Or.inr h1
        · intro p hp
          simp only [List.mem_cons] at hp
          rcases hp with rfl | hp
          · exact Nat.lt_of_lt_of_le (hbound old holdm) IH.fresh_le
          · exact IH.bound p hp
        · intro x hx
          rcases hmem1 x hx with rfl | h1
          · exact Or.inr (by simp)
          · rcases IH.used x h1 with h2 | h2
            · exact Or.inl h2
            · exact Or.inr (by simp [h2])
        · intro x hx
          have h1 := IH.left_sub x hx
          refine ⟨hsub.subset h1.1, ?_⟩
          simp only [List.map_cons, List.mem_cons, not_or]
          refine ⟨?_, h1.2⟩
          intro he
          exact hold1 (he ▸ List.mem_map_of_mem _ h1.1)
        · rw [hst, hpl, ← IH.order, hm]
          simp only [List.map_append, List.map_cons, List.filter_append, List.filter_cons]
          have hno : decide (old.node ∉ left.map (fun x => x.node) ∧
              old.node ∉ old.node :: placedNodes placed) = false := by simp
          rw [hno]
          simp only [Bool.false_eq_true, if_false]
          congr 1 <;>
          · apply List.filter_congr
            intro n hn
            have hne : n ≠ old.node := by
              intro he
              apply hold1
              rw [← he]
              simp only [List.map_append, List.mem_append]
              first | exact Or.inl hn | exact Or.inr hn
            simp [hne]
        · intro x hx hxl
          rw [hst]
          rcases hmem1 x hx with rfl | h1
          · exact fun h => hnot (mem_of_mem_stayNodes _ _ h)
          · exact IH.low x h1 hxl
      · have IH := ih (pre ++ post) (newIdx + 1) old.index fresh hkeys1 hnodes1 hsorted1 hbound1
        simp only [reconcileFromMap, hget, hlt, if_false, hdel]
        generalize reconcileFromMap (pre ++ post) rest (newIdx + 1) old.index fresh = r at IH
        obtain ⟨placed, left, next⟩ := r
        simp only at IH ⊢
        have hnot : old.node ∉ placed.map (fun p => p.node) := by
          intro hmem
          simp only [List.mem_map] at hmem
          obtain ⟨p, hp, hpn⟩ := hmem
          rcases IH.origin p hp with h1 | h1
          · exact hold1 (hpn ▸ h1)
          · have := hbound old holdm
            omega
        have hst : stayNodes (⟨key, old.node, card, false⟩ :: placed)
            = old.node :: stayNodes placed := by
          simp [stayNodes]
        have hpl : placedNodes (⟨key, old.node, card, false⟩ :: placed) = placedNodes placed := by
          simp [placedNodes]
        have hleft : old.node ∉ left.map (fun x => x.node) := by
          intro hmem
          simp only [List.mem_map] at hmem
          obtain ⟨x, hx, hxn⟩ := hmem
          exact hold1 (hxn ▸ List.mem_map_of_mem _ (IH.left_sub x hx).1)
        refine ⟨?_, ?_, ?_, ?_, IH.fresh_le, ?_, ?_, ?_, ?_⟩
        · simp [IH.elems_eq]
        · simp only [List.map_cons, List.nodup_cons]
          exact ⟨hnot, IH.nodup⟩
        · intro p hp
          simp only [List.mem_cons] at hp
          rcases hp with rfl | hp
          · exact Or.inl (List.mem_map_of_mem _ holdm)
          · rcases IH.origin p hp with h1 | h1
            · exact Or.inl ((List.Sublist.map _ hsub).subset h1)
            · exact Or.inr h1
        · intro p hp
          simp only [List.mem_cons] at hp
          rcases hp with rfl | hp
          · exact Nat.lt_of_lt_of_le (hbound old holdm) IH.fresh_le
          · exact IH.bound p hp
        · intro x hx
          rcases hmem1 x hx with rfl | h1
          · exact Or.inr (by simp)
          · rcases IH.used x h1 with h2 | h2
            · exact Or.inl h2
            · exact Or.inr (by simp [h2])
        · intro x hx
          have h1 := IH.left_sub x hx
          refine ⟨hsub.subset h1.1, ?_⟩
          simp only [List.map_cons, List.mem_cons, not_or]
          refine ⟨?_, h1.2⟩
          intro he
          exact hold1 (he ▸ List.mem_map_of_mem _ h1.1)
        · have hord := IH.order
          rw [hst, hpl, hm]
          simp only [List.map_append, List.filter_append] at hord
          simp only [List.map_append, List.map_cons, List.filter_append, List.filter_cons]
          have hyes : decide (old.node ∉ left.map (fun x => x.node) ∧
              old.node ∉ placedNodes placed) = true := by
            simp only [decide_eq_true_eq]
            exact ⟨hleft, fun h => hnot (mem_of_mem_placedNodes _ _ h)⟩
          have hprenil : (pre.map (fun x => x.node)).filter
              (fun n => decide (n ∉ left.map (fun x => x.node) ∧ n ∉ placedNodes placed)) = [] := by
            rw [List.filter_eq_nil_iff]
            intro n hn
            simp only [List.mem_map] at hn
            obtain ⟨y, hy, rfl⟩ := hn
            simp only [decide_eq_true_eq, not_and, not_not]
            intro hnl
            have hy1 : y ∈ pre ++ post := by simp [hy]
            rcases IH.used y hy1 with h2 | h2
            · exact absurd (List.mem_map_of_mem _ h2) hnl
            · rcases mem_stay_or_placed placed y.node h2 with h3 | h3
              · exact absurd h3 (IH.low y hy1 (hpre y hy))
              · exact h3
          rw [hyes, hprenil]
          rw [hprenil] at hord
          simp only [List.nil_append, if_true] at hord ⊢
          rw [hord]
        · intro x hx hxl
          rw [hst]
          simp only [List.mem_cons, not_or]
          rcases hmem1 x hx with rfl | h1
          · exact absurd hxl hlt
          · refine ⟨?_, IH.low x h1 (by omega)⟩
            intro he
            exact hold1 (he ▸ List.mem_map_of_mem _ h1)

theorem ReconcileSpec.of_fromMap (olds : List Fiber) (elems : List (Option String × Card))
    (idx last fresh : Nat) (hkeys : (olds.filterMap (fun f => f.key)).Nodup)
    (hnodes : (olds.map (fun f => f.node)).Nodup) (hbound : ∀ f ∈ olds, f.node < fresh) :
    ReconcileSpec olds elems fresh
      (reconcileFromMap (mapRemainingChildren olds idx []) elems idx last fresh).1
      ((reconcileFromMap (mapRemainingChildren olds idx []) elems idx last fresh).2.1.map
        (fun x => x.node))
      (reconcileFromMap (mapRemainingChildren olds idx []) elems idx last fresh).2.2 := by
  have hk := existingFrom_keys_nodup olds idx hkeys
  have hm : mapRemainingChildren olds idx [] = existingFrom olds idx := by
    have := mapRemainingChildren_eq olds idx [] (by simpa using hk)
    simpa using this
  rw [hm]
  have hn := existingFrom_nodes olds idx
  have S := reconcileFromMap_spec elems (existingFrom olds idx) idx last fresh hk
    (by rw [hn]; exact hnodes) (existingFrom_sorted olds idx)
    (by
      intro x hx
      have hx2 : x.node ∈ (existingFrom olds idx).map (fun x => x.node) :=
        List.mem_map_of_mem _ hx
      rw [hn, List.mem_map] at hx2
      obtain ⟨f, hf, hfe⟩ := hx2
      rw [← hfe]
      exact hbound f hf)
  generalize reconcileFromMap (existingFrom olds idx) elems idx last fresh = r at S
  obtain ⟨placed, left, next⟩ := r
  simp only at S ⊢
  refine ⟨S.elems_eq, S.nodup, ?_, S.bound, S.fresh_le, ?_, ?_⟩
  · intro p hp
    rw [← hn]
    exact S.origin p hp
  · intro n hmem
    simp only [List.mem_map] at hmem
    obtain ⟨x, hx, rfl⟩ := hmem
    rw [← hn]
    exact List.mem_map_of_mem _ (S.left_sub x hx).1
  · rw [← hn]
    exact S.order

theorem reconcileChildrenArray_spec :
    ∀ (olds : List Fiber) (elems : List (Option String × Card)) (idx last fresh : Nat),
      (olds.filterMap (fun f => f.key)).Nodup → (olds.map (fun f => f.node)).Nodup →
      (∀ f ∈ olds, f.node < fresh) →
      ReconcileSpec olds elems fresh (reconcileChildrenArray olds elems idx last fresh).1
        (reconcileChildrenArray olds elems idx last fresh).2.1
        (reconcileChildrenArray olds elems idx last fresh).2.2 := by
  intro olds
  induction olds with
  | nil =>
    intro elems idx last fresh hkeys hnodes hbound
    cases elems with
    | nil =>
      simp only [reconcileChildrenArray]
      exact ⟨rfl, List.nodup_nil, by simp, by simp, Nat.le_refl _, by simp, by simp [stayNodes]⟩
    | cons e es =>
      have S := ReconcileSpec.of_fromMap [] (e :: es) idx last fresh hkeys hnodes hbound
      simp only [mapRemainingChildren] at S
      simp only [reconcileChildrenArray]
      generalize reconcileFromMap [] (e :: es) idx last fresh = r at S
      obtain ⟨placed, left, next⟩ := r
      simp only at S ⊢
      refine ⟨S.elems_eq, S.nodup, S.origin, S.bound, S.fresh_le, ?_, ?_⟩
      · intro n hmem
        simp at hmem
      · rw [← S.order]
        simp
  | cons old olds ih =>
    intro elems idx last fresh hkeys hnodes hbound
    cases elems with
    | nil =>
      simp only [reconcileChildrenArray]
      refine ⟨rfl, List.nodup_nil, by simp, by simp, Nat.le_refl _, fun n hn => hn, ?_⟩
      simp only [stayNodes, List.filter_nil, List.map_nil, List.filter_eq_nil_iff]
      intro n hn
      simp only [decide_eq_true_eq, not_and, not_not]
      intro h
      exact absurd hn h
    | cons e es =>
      obtain ⟨key, card⟩ := e
      by_cases hk : old.key = key
      · have hkeys1 : (olds.filterMap (fun f => f.key)).Nodup := by
          cases hf : old.key with
          | none => simpa [List.filterMap_cons, hf] using hkeys
          | some k =>
            rw [List.filterMap_cons, hf] at hkeys
            exact (List.nodup_cons.mp hkeys).2
        have hnodes1 : (olds.map (fun f => f.node)).Nodup := by
          simp only [List.map_cons, List.nodup_cons] at hnodes
          exact hnodes.2
        have holdnot : old.node ∉ olds.map (fun f => f.node) := by
          simp only [List.map_cons, List.nodup_cons] at hnodes
          exact hnodes.1
        have IH := ih es (idx + 1) idx fresh hkeys1 hnodes1
          (fun f hf => hbound f (List.mem_cons_of_mem _ hf))
        simp only [reconcileChildrenArray, hk, if_true]
        generalize reconcileChildrenArray olds es (idx + 1) idx fresh = r at IH
        obtain ⟨placed, deletions, next⟩ := r
        simp only at IH ⊢
        have hnot : old.node ∉ placed.map (fun p => p.node) := by
          intro hmem
          simp only [List.mem_map] at hmem
          obtain ⟨p, hp, hpn⟩ := hmem
          rcases IH.origin p hp with h1 | h1
          · exact holdnot (hpn ▸ h1)
          · have := hbound old (List.mem_cons_self _ _)
            omega
        refine ⟨?_, ?_, ?_, ?_, IH.fresh_le, ?_, ?_⟩
        · simp [IH.elems_eq]
        · simp only [List.map_cons, List.nodup_cons]
          exact ⟨hnot, IH.nodup⟩
        · intro p hp
          simp only [List.mem_cons] at hp
          rcases hp with rfl | hp
          · exact Or.inl (by simp)
          · rcases IH.origin p hp with h1 | h1
            · exact Or.inl (by simp [h1])
            · exact Or.inr h1
        · intro p hp
          simp only [List.mem_cons] at hp
          rcases hp with rfl | hp
          · exact Nat.lt_of_lt_of_le (hbound old (List.mem_cons_self _ _)) IH.fresh_le
          · exact IH.bound p hp
        · intro n hn
          exact List.mem_cons_of_mem _ (IH.del_sub n hn)
        · have hst : stayNodes (⟨key, old.node, card, false⟩ :: placed)
              = old.node :: stayNodes placed := by
            simp [stayNodes]
          have hpl : placedNodes (⟨key, old.node, card, false⟩ :: placed)
              = placedNodes placed := by
            simp [placedNodes]
          rw [hst, hpl, ← IH.order]
          simp only [List.map_cons, List.filter_cons]
          have hyes : decide (old.node ∉ deletions ∧ old.node ∉ placedNodes placed) = true := by
            simp only [decide_eq_true_eq]
            exact ⟨fun h => holdnot (IH.del_sub _ h),
              fun h => hnot (mem_of_mem_placedNodes _ _ h)⟩
          rw [hyes]
          simp
      · have S := ReconcileSpec.of_fromMap (old :: olds) ((key, card) :: es) idx last fresh
          hkeys hnodes hbound
        simp only [reconcileChildrenArray, hk, if_false]
        generalize reconcileFromMap (mapRemainingChildren (old :: olds) idx [])
          ((key, card) :: es) idx last fresh = r at S
        obtain ⟨placed, left, next⟩ := r
        exact S

/-! ## A render over a screen without leftovers -/

theorem update_spec (H : Host) (st : Dashboard) (scr : Screen)
    (elems : List (Option String × Card)) (hclean : scr.Clean)
    (hel : Dashboard.elements H st = .ok elems) :
    ∃ scr2 : Screen, Dashboard.update H st scr = .ok scr2 ∧
      scr2.dom.map (fun n => n.2) = elems.map (fun e => e.2) ∧
      scr2.fibers.map (fun f => f.key) = elems.map (fun e => e.1) ∧
      scr2.dom.map (fun n => n.1) = scr2.fibers.map (fun f => f.node) ∧
      (scr2.fibers.map (fun f => f.node)).Nodup ∧
      (∀ f ∈ scr2.fibers, f.node < scr2.fresh) ∧
      scr2.noResults = (elems.length == 0) ∧
      scr2.message = (if truthy (.str st.msg) then some st.msg else none) := by
  obtain ⟨hkeys, hnodes, hdom, hbound⟩ := hclean
  have S := reconcileChildrenArray_spec scr.fibers elems 0 0 scr.fresh hkeys hnodes hbound
  simp only [Dashboard.update, hel]
  generalize reconcileChildrenArray scr.fibers elems 0 0 scr.fresh = r at S
  obtain ⟨placed, deletions, next⟩ := r
  simp only at S ⊢
  have hcommit : commit scr.dom deletions placed = placed.map (fun p => (p.node, p.card)) := by
    unfold commit
    apply commitPlacements_eq placed _ S.nodup
    rw [← S.order, ← hdom, List.filter_map, List.filter_filter]
    simp only [List.filter_map, Function.comp_def]
    congr 1
    apply List.filter_congr
    intro y _
    by_cases h1 : y.1 ∈ deletions <;> by_cases h2 : y.1 ∈ placedNodes placed <;> simp [h1, h2]
  refine ⟨_, rfl, ?_, ?_, ?_, ?_, ?_, rfl, rfl⟩
  · simp only [hcommit, List.map_map, Function.comp_def]
    rw [← S.elems_eq]
    simp [List.map_map, Function.comp_def]
  · simp only [List.map_map, Function.comp_def]
    rw [← S.elems_eq]
    simp [List.map_map, Function.comp_def]
  · simp [hcommit, List.map_map, Function.comp_def]
  · simpa [List.map_map, Function.comp_def] using S.nodup
  · intro f hf
    simp only [List.mem_map] at hf
    obtain ⟨p, hp, rfl⟩ := hf
    exact S.bound p hp

theorem elements_of_items (H : Host) (st : Dashboard) (items : List JSVal)
    (elements : List Element) (cards : List Card) (hst : st.items = .arr items)
    (hel : Dashboard.renderItems H items = .ok elements)
    (hc : Dashboard.cards H elements = .ok cards) :
    Dashboard.elements H st = .ok ((elements.map (fun el => el.key)).zip cards) := by
  simp only [Dashboard.elements, hst, hel, hc]

theorem update_clean (H : Host) (st : Dashboard) (scr : Screen)
    (elems : List (Option String × Card)) (hclean : scr.Clean)
    (hel : Dashboard.elements H st = .ok elems)
    (hkeys : ((elems.map (fun e => e.1)).filterMap id).Nodup) :
    ∃ scr2 : Screen, Dashboard.update H st scr = .ok scr2 ∧ scr2.Clean := by
  obtain ⟨scr2, h1, _, h3, h4, h5, h6, _, _⟩ := update_spec H st scr elems hclean hel
  refine ⟨scr2, h1, ?_, h5, h4, h6⟩
  rw [← h3, List.filterMap_map] at hkeys
  simpa [Function.comp_def] using hkeys

theorem afterRec_spec (H : Host) (st : Dashboard) (scr : Screen) (items : List JSVal)
    (prior : List (Option String × Card)) (elements : List Element) (cards : List Card)
    (hclean : scr.Clean) (hprior : Dashboard.elements H st = .ok prior)
    (hkeys : ((prior.map (fun e => e.1)).filterMap id).Nodup)
    (hel : Dashboard.renderItems H items = .ok elements)
    (hc : Dashboard.cards H elements = .ok cards) :
    ∃ scr2 : Screen, Dashboard.afterRec H st (.arr items) scr = .ok scr2 ∧
      scr2.view = ⟨items.length == 0, cards, none⟩ ∧
      scr2.fibers.map (fun f => f.key) = elements.map (fun el => el.key) ∧
      scr2.dom.map (fun n => n.1) = scr2.fibers.map (fun f => f.node) := by
  have hlen1 := renderItems_length H items elements hel
  have hlen2 := cards_length H elements cards hc
  have hnew : Dashboard.elements H { st with msg := "", items := .arr items }
      = .ok ((elements.map (fun el => el.key)).zip cards) :=
    elements_of_items H _ items elements cards rfl hel hc
  have key : ∀ scr1 : Screen, scr1.Clean →
      ∃ scr2 : Screen, Dashboard.update H { st with msg := "", items := .arr items } scr1
          = .ok scr2 ∧
        scr2.view = ⟨items.length == 0, cards, none⟩ ∧
        scr2.fibers.map (fun f => f.key) = elements.map (fun el => el.key) ∧
        scr2.dom.map (fun n => n.1) = scr2.fibers.map (fun f => f.node) := by
    intro scr1 h1
    obtain ⟨scr2, hu, hd, hk, hn, _, _, hno, hmsg⟩ := update_spec H _ scr1 _ h1 hnew
    refine ⟨scr2, hu, ?_, ?_, hn⟩
    · have hzl : ((elements.map (fun el => el.key)).zip cards).length = items.length := by
        simp [List.length_zip, hlen1, hlen2]
      have hsnd : ((elements.map (fun el => el.key)).zip cards).map (fun e => e.2) = cards := by
        have := List.map_snd_zip (elements.map (fun el => el.key)) cards (by simp [hlen2])
        simpa using this
      simp only [Screen.view, hd, hsnd, hno, hzl, hmsg, truthy]
      simp
    · rw [hk]
      have := List.map_fst_zip (elements.map (fun el => el.key)) cards (by simp [hlen2])
      simpa using this
  unfold Dashboard.afterRec
  by_cases hm : st.msg = ""
  · rw [if_pos hm]
    exact key scr hclean
  · rw [if_neg hm]
    have hprior2 : Dashboard.elements H { st with msg := "" } = .ok prior := by
      rw [← hprior]; rfl
    obtain ⟨scr1, hu1, hc1⟩ := update_clean H _ scr prior hclean hprior2 hkeys
    rw [hu1]
    exact key scr1 hc1

theorem render_eq_elements (H : Host) (st : Dashboard) :
    Dashboard.render H st = (Dashboard.elements H st).map (fun elems =>
      ⟨elems.length == 0, elems.map (fun e => e.2),
        if truthy (.str st.msg) then some st.msg else none⟩) := by
  unfold Dashboard.render Dashboard.elements
  cases st.items <;> try rfl
  rename_i items
  dsimp only
  cases hel : Dashboard.renderItems H items with
  | error e => rfl
  | ok elements =>
    dsimp only
    cases hc : Dashboard.cards H elements with
    | error e => rfl
    | ok cards =>
      have hlen1 := renderItems_length H items elements hel
      have hlen2 := cards_length H elements cards hc
      have hsnd : ((elements.map (fun el => el.key)).zip cards).map (fun e => e.2) = cards := by
        have := List.map_snd_zip (elements.map (fun el => el.key)) cards (by simp [hlen2])
        simpa using this
      simp only [Except.map, hsnd, List.length_zip, List.length_map, hlen1, hlen2, Nat.min_self]

theorem Screen.empty_clean : Screen.empty.Clean :=
  ⟨List.nodup_nil, List.nodup_nil, rfl, fun f hf => by simp [Screen.empty] at hf⟩

/-- The first render is a render over the empty screen. -/
theorem render_eq_update_empty (H : Host) (st : Dashboard) :
    Dashboard.render H st = (Dashboard.update H st Screen.empty).map Screen.view := by
  rw [render_eq_elements]
  cases hel : Dashboard.elements H st with
  | error e => simp only [Dashboard.update, hel]; rfl
  | ok elems =>
    obtain ⟨scr2, hu, hd, _, _, _, _, hno, hmsg⟩ :=
      update_spec H st Screen.empty elems Screen.empty_clean hel
    rw [hu]
    simp only [Except.map, Screen.view, hd, hno, hmsg]

/-! ## Login -/

/-- C1, as stated, fails: a response whose `access_token` is the empty string
carries an access_token value, the submit succeeds and navigates, and the
token that was set is the empty string (the header is `Bearer ` and nothing
more). -/
theorem login_sets_empty_token :
    (Login.onSubmit localHost (.ok (.obj [("access_token", .str "")])) Login.initial
        World.fresh).result = .ok () ∧
      (Login.onSubmit localHost (.ok (.obj [("access_token", .str "")])) Login.initial
        World.fresh).world.common = [("Authorization", "Bearer " ++ "")] ∧
      (Login.onSubmit localHost (.ok (.obj [("access_token", .str "")])) Login.initial
        World.fresh).world.effects.getLast? = some (.navigate "/dashboard") := by
  refine ⟨rfl, rfl, rfl⟩

/-- C1 (amended): when the login call resolves to a response whose
`access_token` is `tok`, with string conversion `s` (`s` is `tok` itself for
a string), `onSubmit` fulfils, sets the default header `Authorization` to
exactly `"Bearer " ++ s`, then navigates to `/dashboard`, and leaves the
component state, the error string included, unchanged; every request issued
afterwards carries that header.  The client does not look at the token: it is
non-empty exactly when `s` is. -/
theorem login_success (H : Host) (st : Login) (w : World) (props : List (String × JSVal))
    (tok : JSVal) (s : String) (hprop : props.lookup "access_token" = some tok)
    (hs : ToString H tok = .ok s) :
    (Login.onSubmit H (.ok (.obj props)) st w).result = .ok () ∧
      (Login.onSubmit H (.ok (.obj props)) st w).view = st ∧
      (Login.onSubmit H (.ok (.obj props)) st w).world.common
        = setProp w.common "Authorization" ("Bearer " ++ s) ∧
      (Login.onSubmit H (.ok (.obj props)) st w).world.common.lookup "Authorization"
        = some ("Bearer " ++ s) ∧
      (Login.onSubmit H (.ok (.obj props)) st w).world.effects
        = w.effects ++ [.preventDefault,
            .request ⟨"POST", API H ++ "/auth/login",
              .obj [("email", .str st.email), ("password", .str st.password)], w.common⟩,
            .navigate "/dashboard"] ∧
      (∀ (method url : String) (data : JSVal) (settle : Except JSVal JSVal),
        ∃ r : Request,
          (axiosRequest method url data settle
            (Login.onSubmit H (.ok (.obj props)) st w).world).2.effects.getLast?
              = some (.request r) ∧
          r.headers.lookup "Authorization" = some ("Bearer " ++ s)) := by
  have hout : Login.onSubmit H (.ok (.obj props)) st w
      = ⟨.ok (), st, nav "/dashboard"
          { common := setProp w.common "Authorization" ("Bearer " ++ s),
            effects := (w.effects ++ [.preventDefault]) ++
              [.request ⟨"POST", API H ++ "/auth/login",
                .obj [("email", .str st.email), ("password", .str st.password)], w.common⟩] }⟩ := by
    simp [Login.onSubmit, login, axiosRequest, Get, hprop, setToken, hs]
  rw [hout]
  refine ⟨rfl, rfl, rfl, lookup_setProp_self _ _ _, by simp [nav], ?_⟩
  intro method url data settle
  refine ⟨⟨method, url, data, setProp w.common "Authorization" ("Bearer " ++ s)⟩, ?_, ?_⟩
  · simp [axiosRequest, nav]
  · exact lookup_setProp_self _ _ _

/-- The mocked backend of the spec: `access_token: "tok123"` gives the header
`Authorization: Bearer tok123` and a move to the Dashboard. -/
theorem login_success_tok123 :
    (Login.onSubmit localHost (.ok (.obj [("access_token", .str "tok123")])) Login.initial
        World.fresh).world.common.lookup "Authorization" = some ("Bearer " ++ "tok123") :=
  (login_success localHost Login.initial World.fresh [("access_token", .str "tok123")]
    (.str "tok123") "tok123" rfl rfl).2.2.2.1

/-- The `catch` block after a rejected login, for any thrown value `e` with a
string conversion `s`. -/
theorem onSubmit_rejected (H : Host) (st : Login) (w : World) (e : JSVal) (s : String)
    (hs : ToString H e = .ok s) :
    Login.onSubmit H (.error e) st w
      = ⟨.ok (), { st with err := s },
          { common := w.common,
            effects := w.effects ++ [.preventDefault,
              .request ⟨"POST", API H ++ "/auth/login",
                .obj [("email", .str st.email), ("password", .str st.password)], w.common⟩] }⟩ := by
  simp [Login.onSubmit, login, axiosRequest, Login.caught, hs]

theorem errorToString_ne_empty (name message : String) (hname : name ≠ "") :
    errorToString name message ≠ "" := by
  unfold errorToString
  rw [if_neg hname]
  by_cases hm : message = ""
  · rw [if_pos hm]; exact hname
  · rw [if_neg hm]
    intro habs
    have hlen := congrArg String.length habs
    simp only [String.length_append] at hlen
    have h2 : (": " : String).length = 2 := by decide
    have h0 : ("" : String).length = 0 := by decide
    omega

/-- C2: the login call is the promise of `axios.post`, and what that rejects
with is an Error instance with a name (an AxiosError; its `message` is
arbitrary).  For every email and password in the state and every such error
`e`, `onSubmit` fulfils, issues the login request and nothing else (no
navigation), leaves the default headers exactly as they were (no `setToken`),
and sets `err` to `String(e)`, the other fields unchanged; that string is
non-empty, and the Login view renders it. -/
theorem login_failure (H : Host) (st : Login) (w : World) (name message : String)
    (hname : name ≠ "") :
    (Login.onSubmit H (.error (.error name message)) st w).result = .ok () ∧
      ToString H (.error name message) = .ok (errorToString name message) ∧
      (Login.onSubmit H (.error (.error name message)) st w).view
        = { st with err := errorToString name message } ∧
      (Login.onSubmit H (.error (.error name message)) st w).world.common = w.common ∧
      (Login.onSubmit H (.error (.error name message)) st w).world.effects
        = w.effects ++ [.preventDefault,
            .request ⟨"POST", API H ++ "/auth/login",
              .obj [("email", .str st.email), ("password", .str st.password)], w.common⟩] ∧
      (Login.onSubmit H (.error (.error name message)) st w).view.err ≠ "" ∧
      (Login.render (Login.onSubmit H (.error (.error name message)) st w).view).error
        = some (errorToString name message) := by
  have hne := errorToString_ne_empty name message hname
  rw [onSubmit_rejected H st w (.error name message) (errorToString name message) rfl]
  refine ⟨rfl, rfl, rfl, rfl, rfl, hne, ?_⟩
  simp [Login.render, truthy, hne]

/-- A login rejected with status 401: the user stays on Login and reads the
text of the AxiosError. -/
theorem login_failure_unauthorized :
    (Login.onSubmit localHost (.error (.error "AxiosError" "Request failed with status code 401"))
        Login.initial World.fresh).view.err ≠ "" ∧
      (Login.render
        (Login.onSubmit localHost
          (.error (.error "AxiosError" "Request failed with status code 401"))
          Login.initial World.fresh).view).error
        = some "AxiosError: Request failed with status code 401" :=
  ⟨(login_failure localHost Login.initial World.fresh "AxiosError"
      "Request failed with status code 401" (by decide)).2.2.2.2.2.1,
    (login_failure localHost Login.initial World.fresh "AxiosError"
      "Request failed with status code 401" (by decide)).2.2.2.2.2.2⟩

/-! ## Dashboard: requests -/

/-- C4: `recommend(c, s, k)` leaves the headers alone and issues exactly one
request, a POST to `<base>/recs/recommend` whose body has exactly the fields
`client_id = c`, `student_uid = s`, `top_k = k`; with `top_k` omitted (which
is `undefined`) the body has `top_k = 5`.  The Recommend action sends the
`clientId` and `studentUid` of the state with `top_k = 5`, so from the mounted
state the body is `client_id: "client_U1", student_uid: "S1", top_k: 5`, to the
local default base when none is configured. -/
theorem recommend_request (H : Host) (c s k : JSVal) (settle : Except JSVal JSVal)
    (st : Dashboard) (w : World) :
    (recommend H c s k settle w).2.common = w.common ∧
      (k ≠ .undefined →
        (recommend H c s k settle w).2.effects
          = w.effects ++ [.request ⟨"POST", API H ++ "/recs/recommend",
              .obj [("client_id", c), ("student_uid", s), ("top_k", k)], w.common⟩]) ∧
      (recommend H c s .undefined settle w).2.effects
        = w.effects ++ [.request ⟨"POST", API H ++ "/recs/recommend",
            .obj [("client_id", c), ("student_uid", s), ("top_k", JSVal.ofNat 5)], w.common⟩] ∧
      (Dashboard.onRec H settle st w).world.effects
        = w.effects ++ [.request ⟨"POST", API H ++ "/recs/recommend",
            .obj [("client_id", .str st.clientId), ("student_uid", .str st.studentUid),
              ("top_k", JSVal.ofNat 5)], w.common⟩] ∧
      (Dashboard.onRec localHost settle Dashboard.initial w).world.effects
        = w.effects ++ [.request ⟨"POST", "http://localhost:8000/api/v1" ++ "/recs/recommend",
            .obj [("client_id", .str "client_U1"), ("student_uid", .str "S1"),
              ("top_k", JSVal.ofNat 5)], w.common⟩] := by
  refine ⟨rfl, ?_, rfl, ?_, ?_⟩
  · intro hk
    cases k <;> first | exact absurd rfl hk | rfl
  · cases settle <;> rfl
  · cases settle <;> rfl

/-- C7: with `studentUid = s`, `onLike(j, b)` for a boolean `b` issues exactly
one request, the one `sendFeedback(s, j, b, note)` makes with `note` being
`"liked"` for `true` and `"not matched"` for `false`: a POST to
`<base>/feedback/submit` with the body `student_uid: s, job_uid: j, liked: b,
notes: note`.  When it resolves, the message becomes `"Feedback saved for "`
followed by the text of `j` (`j` itself for a string), and the results list
and every other field stay as they were. -/
theorem like_sends_feedback (H : Host) (st : Dashboard) (w : World) (j ack : JSVal) (b : Bool)
    (text : String) (hj : ToString H j = .ok text) :
    (Dashboard.onLike H (.ok ack) j (.bool b) st w).result = .ok () ∧
      (Dashboard.onLike H (.ok ack) j (.bool b) st w).view
        = { st with msg := "Feedback saved for " ++ text } ∧
      (Dashboard.onLike H (.ok ack) j (.bool b) st w).view.items = st.items ∧
      (Dashboard.onLike H (.ok ack) j (.bool b) st w).world
        = (sendFeedback H (.str st.studentUid) j (.bool b)
            (.str (if b then "liked" else "not matched")) (.ok ack) w).2 ∧
      (Dashboard.onLike H (.ok ack) j (.bool b) st w).world.common = w.common ∧
      (Dashboard.onLike H (.ok ack) j (.bool b) st w).world.effects
        = w.effects ++ [.request ⟨"POST", API H ++ "/feedback/submit",
            .obj [("student_uid", .str st.studentUid), ("job_uid", j), ("liked", .bool b),
              ("notes", .str (if b then "liked" else "not matched"))], w.common⟩] := by
  have hout : Dashboard.onLike H (.ok ack) j (.bool b) st w
      = ⟨.ok (), { st with msg := "Feedback saved for " ++ text },
          { common := w.common,
            effects := w.effects ++ [.request ⟨"POST", API H ++ "/feedback/submit",
              .obj [("student_uid", .str st.studentUid), ("job_uid", j), ("liked", .bool b),
                ("notes", .str (if b then "liked" else "not matched"))], w.common⟩] }⟩ := by
    cases b <;> simp [Dashboard.onLike, sendFeedback, axiosRequest, truthy, orDefault, hj]
  rw [hout]
  refine ⟨rfl, rfl, rfl, ?_, rfl, rfl⟩
  cases b <;> rfl

/-- The Like button of job `J7` with `studentUid = "S1"`: the call is
`sendFeedback("S1", "J7", true, "liked")` and the message names `J7`. -/
theorem like_J7 :
    (Dashboard.onLike localHost (.ok .null) (.str "J7") (.bool true) Dashboard.initial
        World.fresh).world.effects
      = World.fresh.effects ++ [.request ⟨"POST", API localHost ++ "/feedback/submit",
          .obj [("student_uid", .str Dashboard.initial.studentUid), ("job_uid", .str "J7"),
            ("liked", .bool true), ("notes", .str (if true then "liked" else "not matched"))],
          World.fresh.common⟩] ∧
      (Dashboard.onLike localHost (.ok .null) (.str "J7") (.bool true) Dashboard.initial
        World.fresh).view
      = { Dashboard.initial with msg := "Feedback saved for " ++ "J7" } :=
  ⟨(like_sends_feedback localHost Dashboard.initial World.fresh (.str "J7") .null true "J7"
      rfl).2.2.2.2.2,
    (like_sends_feedback localHost Dashboard.initial World.fresh (.str "J7") .null true "J7"
      rfl).2.1⟩

/-- C8: however the two on-mount calls settle and in whichever order, the
mount effect leaves nothing rejected; a rejected `listStudents` leaves
`students` as it was (empty, on mount) and a fulfilled one sets it to the
response, the same for `listJobs` and `jobs`, each whatever the other did;
`msg` and every other field keep their values, and no message is rendered. -/
theorem mount_failures_contained (H : Host) (rs rj : Except JSVal JSVal) (jobsFirst : Bool)
    (st : Dashboard) (w : World) :
    (Dashboard.mountEffect H rs rj jobsFirst st w).result = .ok () ∧
      (∀ e, rs = .error e → (Dashboard.mountEffect H rs rj jobsFirst st w).view.students
        = st.students) ∧
      (∀ d, rs = .ok d → (Dashboard.mountEffect H rs rj jobsFirst st w).view.students = d) ∧
      (∀ e, rj = .error e → (Dashboard.mountEffect H rs rj jobsFirst st w).view.jobs
        = st.jobs) ∧
      (∀ d, rj = .ok d → (Dashboard.mountEffect H rs rj jobsFirst st w).view.jobs = d) ∧
      (Dashboard.mountEffect H rs rj jobsFirst st w).view.msg = st.msg ∧
      (Dashboard.mountEffect H rs rj jobsFirst st w).view.items = st.items ∧
      (Dashboard.mountEffect H rs rj jobsFirst st w).view.clientId = st.clientId ∧
      (Dashboard.mountEffect H rs rj jobsFirst st w).view.studentUid = st.studentUid ∧
      Dashboard.mountEffect H rs rj true st w = Dashboard.mountEffect H rs rj false st w ∧
      (∀ e, rs = .error e →
        (Dashboard.mountEffect H rs rj jobsFirst Dashboard.initial w).view.students
          = .arr []) ∧
      (∀ e, rj = .error e →
        (Dashboard.mountEffect H rs rj jobsFirst Dashboard.initial w).view.jobs = .arr []) ∧
      (Dashboard.render H (Dashboard.mountEffect H rs rj jobsFirst Dashboard.initial w).view
        = .ok ⟨true, [], none⟩) := by
  cases rs <;> cases rj <;> cases jobsFirst <;>
    simp [Dashboard.mountEffect, listStudents, listJobs, axiosRequest, Dashboard.settleStudents,
      Dashboard.settleJobs, Dashboard.initial, Dashboard.render, Dashboard.renderItems,
      Dashboard.cards, truthy]

/-- C10: when the recommend call rejects with `e`, `onRec` rejects with the
same `e`; the message is already the empty string and `items`, `students`,
`jobs`, `clientId` and `studentUid` keep their values, so the same result
entries are rendered as before.  When `sendFeedback` rejects with `e`,
`onLike` rejects with `e` and the state, the message included, is untouched. -/
theorem failures_propagate (H : Host) (e job_uid liked : JSVal) (st : Dashboard) (w : World) :
    (Dashboard.onRec H (.error e) st w).result = .error e ∧
      (Dashboard.onRec H (.error e) st w).view = { st with msg := "" } ∧
      (Dashboard.onRec H (.error e) st w).view.msg = "" ∧
      (Dashboard.onRec H (.error e) st w).view.items = st.items ∧
      (Dashboard.onRec H (.error e) st w).view.students = st.students ∧
      (Dashboard.onRec H (.error e) st w).view.jobs = st.jobs ∧
      (Dashboard.onRec H (.error e) st w).view.clientId = st.clientId ∧
      (Dashboard.onRec H (.error e) st w).view.studentUid = st.studentUid ∧
      (Dashboard.render H (Dashboard.onRec H (.error e) st w).view).map (fun v => v.entries)
        = (Dashboard.render H st).map (fun v => v.entries) ∧
      (Dashboard.onLike H (.error e) job_uid liked st w).result = .error e ∧
      (Dashboard.onLike H (.error e) job_uid liked st w).view = st := by
  exact ⟨rfl, rfl, rfl, rfl, rfl, rfl, rfl, rfl, render_entries_of_items H _ _ rfl, rfl, rfl⟩

/-- After a rejected recommend call React renders for `setMsg("")` only: over
a screen without leftovers the entries stay those of the prior results, and
the message line is gone. -/
theorem failed_recommend_keeps_entries (H : Host) (e : JSVal) (st : Dashboard) (w : World)
    (scr : Screen) (prior : List (Option String × Card)) (hclean : scr.Clean)
    (hprior : Dashboard.elements H st = .ok prior) :
    ∃ scr2 : Screen, Dashboard.update H (Dashboard.onRec H (.error e) st w).view scr = .ok scr2 ∧
      scr2.view.entries = prior.map (fun x => x.2) ∧ scr2.view.message = none := by
  have hprior2 : Dashboard.elements H (Dashboard.onRec H (.error e) st w).view = .ok prior := by
    rw [← hprior]; rfl
  obtain ⟨scr2, hu, hd, _, _, _, _, _, hmsg⟩ := update_spec H _ scr prior hclean hprior2
  refine ⟨scr2, hu, hd, ?_⟩
  rw [Screen.view, hmsg]
  rfl

/-! ## Session token -/

/-- C3: after any calls `pre`, a `setToken(tok)` (the text of `tok` being `s`,
which is `tok` itself for a string) and any further calls `post` that are not
`setToken`, so that `tok` is the argument of the most recent `setToken`, the
`Authorization` header is present and is `"Bearer " ++ s`.  Once set, it
stays a `Bearer` header after any calls at all; a call other than `setToken`
leaves every default header as it is; and `setToken` changes no header other
than `Authorization`. -/
theorem session_token_invariant (H : Host) (w : World) (pre post : List ApiCall) (tok : JSVal)
    (s : String) (hs : ToString H tok = .ok s) (hpost : ∀ c ∈ post, c.isSetToken = false) :
    (runAll H (pre ++ [.setToken tok] ++ post) w).common.lookup "Authorization"
        = some ("Bearer " ++ s) ∧
      (∀ calls : List ApiCall, ∃ t,
        (runAll H calls (setToken H tok w).2).common.lookup "Authorization"
          = some ("Bearer " ++ t)) ∧
      (∀ (c : ApiCall) (v : World), c.isSetToken = false → (c.run H v).common = v.common) ∧
      (∀ name : String, name ≠ "Authorization" →
        (setToken H tok w).2.common.lookup name = w.common.lookup name) := by
  have hset : ∀ v : World, (setToken H tok v).2.common
      = setProp v.common "Authorization" ("Bearer " ++ s) := by
    intro v
    simp only [setToken, hs]
  refine ⟨?_, ?_, ?_, ?_⟩
  · rw [runAll_append, runAll_append, runAll_common_of_no_setToken H post hpost]
    show (setToken H tok (runAll H pre w)).2.common.lookup "Authorization" = _
    rw [hset]
    exact lookup_setProp_self _ _ _
  · intro calls
    apply runAll_keeps_bearer
    rw [hset]
    exact ⟨s, lookup_setProp_self _ _ _⟩
  · intro c v hc
    exact run_common_of_not_setToken H c hc v
  · intro name hne
    rw [hset]
    exact lookup_setProp_other _ _ _ _ hne

/-- A session: login, `setToken("a")`, a listing, `setToken("b")`, then a
recommendation and a feedback; the header carries the last token. -/
theorem session_token_last_write :
    (runAll localHost
      ([.login (.str "u") (.str "p") (.ok .null), .setToken (.str "a"), .listStudents (.ok .null)]
        ++ [.setToken (.str "b")]
        ++ [.recommend (.str "client_U1") (.str "S1") (JSVal.ofNat 5) (.error .null),
            .sendFeedback (.str "S1") (.str "J7") (.bool true) (.str "liked") (.ok .null)])
      World.fresh).common.lookup "Authorization" = some ("Bearer " ++ "b") :=
  (session_token_invariant localHost World.fresh
    [.login (.str "u") (.str "p") (.ok .null), .setToken (.str "a"), .listStudents (.ok .null)]
    [.recommend (.str "client_U1") (.str "S1") (JSVal.ofNat 5) (.error .null),
      .sendFeedback (.str "S1") (.str "J7") (.bool true) (.str "liked") (.ok .null)]
    (.str "b") "b" rfl
    (by
      intro c hc
      simp only [List.mem_cons, List.mem_singleton, List.not_mem_nil, or_false] at hc
      rcases hc with rfl | rfl <;> rfl)).1

/-! ## Dashboard: results -/

/-- C5, as stated, fails: after a response in which `J1` comes twice (three
entries are shown), a second Recommend that returns the one item `J2` leaves
`items` with that one item and the screen with two entries, the first of them
a leftover `J1` of the prior results. -/
theorem recommend_leaves_stale_entry :
    (Dashboard.afterRec localHost Dashboard.initial
        (.arr [sampleItem "J1", sampleItem "J1", sampleItem "J3"]) Screen.empty).map
        (fun scr => scr.view.entries.map (fun c => c.job_uid))
      = .ok [.str "J1", .str "J1", .str "J3"] ∧
    (Dashboard.onRec localHost (.ok (.arr [sampleItem "J2"]))
        (Dashboard.onRec localHost (.ok (.arr [sampleItem "J1", sampleItem "J1", sampleItem "J3"]))
          Dashboard.initial World.fresh).view World.fresh).view.items
      = .arr [sampleItem "J2"] ∧
    ((Dashboard.afterRec localHost Dashboard.initial
        (.arr [sampleItem "J1", sampleItem "J1", sampleItem "J3"]) Screen.empty).bind
        (Dashboard.afterRec localHost
          (Dashboard.onRec localHost
            (.ok (.arr [sampleItem "J1", sampleItem "J1", sampleItem "J3"]))
            Dashboard.initial World.fresh).view
          (.arr [sampleItem "J2"]))).map
        (fun scr => scr.view.entries.map (fun c => c.job_uid))
      = .ok [.str "J1", .str "J2"] := by
  refine ⟨rfl, rfl, rfl⟩

/-- C5 (amended): when the recommend call resolves with `data`, `onRec`
fulfils and the state is the prior one with `msg` empty and `items` replaced
by `data`.  When the prior results are shown with no leftover and no key
twice, and the elements of the returned items build and have valid children,
the screen after the action shows no message and exactly one entry per
returned item, in the order received: as many entries as items, entry `i`
being what React shows for the element of item `i`; the new fibers carry the
keys of the items, and the document holds their nodes and nothing else, so
nothing of the prior results survives. -/
theorem recommend_replaces_results (H : Host) (st : Dashboard) (w : World) (scr : Screen)
    (items : List JSVal) (prior : List (Option String × Card)) (elements : List Element)
    (cards : List Card) (hclean : scr.Clean) (hprior : Dashboard.elements H st = .ok prior)
    (hkeys : ((prior.map (fun e => e.1)).filterMap id).Nodup)
    (hel : Dashboard.renderItems H items = .ok elements)
    (hc : Dashboard.cards H elements = .ok cards) :
    (∀ data : JSVal, (Dashboard.onRec H (.ok data) st w).result = .ok () ∧
        (Dashboard.onRec H (.ok data) st w).view = { st with msg := "", items := data }) ∧
      ∃ scr2 : Screen,
        Dashboard.afterRec H st (Dashboard.onRec H (.ok (.arr items)) st w).view.items scr
          = .ok scr2 ∧
        scr2.view = ⟨items.length == 0, cards, none⟩ ∧
        scr2.view.entries.length = items.length ∧
        (∀ (i : Nat) (it : JSVal), items[i]? = some it →
          ∃ el card, scr2.view.entries[i]? = some card ∧
            Dashboard.itemElement H it = .ok el ∧ Dashboard.card H el = .ok card) ∧
        scr2.fibers.map (fun f => f.key) = elements.map (fun el => el.key) ∧
        scr2.dom.map (fun n => n.1) = scr2.fibers.map (fun f => f.node) := by
  refine ⟨fun data => ⟨rfl, rfl⟩, ?_⟩
  obtain ⟨scr2, h1, h2, h3, h4⟩ :=
    afterRec_spec H st scr items prior elements cards hclean hprior hkeys hel hc
  refine ⟨scr2, h1, h2, ?_, ?_, h3, h4⟩
  · rw [h2]
    exact (cards_length H elements cards hc).trans (renderItems_length H items elements hel)
  · intro i it hi
    obtain ⟨el, hel1, hel2⟩ := renderItems_index H items elements hel i it hi
    obtain ⟨card, hc1, hc2⟩ := cards_index H elements cards hc i el hel1
    exact ⟨el, card, by rw [h2]; exact hc1, hel2, hc2⟩

/-- With `J1` and `J3` on screen under a feedback message, a Recommend that
returns `J3`, `J2` shows exactly `J3`, `J2`, and no message. -/
theorem recommend_replaces_results_shown :
    ∃ scr2 : Screen,
      Dashboard.afterRec localHost shownState
          (Dashboard.onRec localHost (.ok (.arr [sampleItem "J3", sampleItem "J2"])) shownState
            World.fresh).view.items shownScreen = .ok scr2 ∧
        scr2.view.entries.map (fun c => c.job_uid) = [.str "J3", .str "J2"] ∧
        scr2.view.message = none := by
  obtain ⟨scr2, h1, h2, -⟩ :=
    (recommend_replaces_results localHost shownState World.fresh shownScreen
      [sampleItem "J3", sampleItem "J2"]
      [(some "J1", ⟨"Intern @ Acme", "Skills: python", "Salary: 100 – 200", "Score: 0.500",
          .str "J1"⟩),
        (some "J3", ⟨"Intern @ Acme", "Skills: python", "Salary: 100 – 200", "Score: 0.500",
          .str "J3"⟩)]
      [⟨some "J3", ⟨.str "Intern", .str "Acme", .str "python", JSVal.ofNat 100, JSVal.ofNat 200,
          "0.500"⟩, .str "J3"⟩,
        ⟨some "J2", ⟨.str "Intern", .str "Acme", .str "python", JSVal.ofNat 100, JSVal.ofNat 200,
          "0.500"⟩, .str "J2"⟩]
      [⟨"Intern @ Acme", "Skills: python", "Salary: 100 – 200", "Score: 0.500", .str "J3"⟩,
        ⟨"Intern @ Acme", "Skills: python", "Salary: 100 – 200", "Score: 0.500", .str "J2"⟩]
      ⟨by decide, by decide, rfl, by decide⟩ rfl (by decide) rfl rfl).2
  exact ⟨scr2, h1, by rw [h2]; rfl, by rw [h2]⟩

/-- An item whose `role` is an object builds its element, but React refuses the
object as a child and the render throws. -/
theorem render_throws_for_object_child :
    Dashboard.render localHost
        { Dashboard.initial with
          items := .arr [.obj [("job_uid", .str "J1"), ("role", .obj [("title", .str "Intern")]),
            ("score", JSVal.ofNat 1)]] }
      = .error (invalidChild "object with keys \x7btitle\x7d") := by
  rfl

/-- An item whose `job_uid` has an own `toString` makes `jsx` throw when it
turns the key into a string. -/
theorem render_throws_for_key :
    Dashboard.render localHost
        { Dashboard.initial with
          items := .arr [.obj [("job_uid", .obj [("toString", JSVal.ofNat 0)]),
            ("score", JSVal.ofNat 1)]] }
      = .error (typeError "Cannot convert object to primitive value") := by
  rfl

/-- On a missing item the first read that throws is that of `role`: the
children are evaluated before the key. -/
theorem itemElement_reads_children_first :
    Dashboard.itemElement localHost .null
      = .error (typeError "Cannot read properties of null (reading 'role')") := by
  rfl

/-- C9, as stated, fails: asked for `top_k = 5`, a backend may answer with six
items; `recommend` returns all six, and after the Recommend action the
Dashboard holds and renders six. -/
theorem recommend_exceeds_top_k :
    (recommend localHost (.str "client_U1") (.str "S1") (JSVal.ofNat 5) (.ok (.arr sixItems))
        World.fresh).1 = .ok (.arr sixItems) ∧
      sixItems.length = 6 ∧
      (Dashboard.onRec localHost (.ok (.arr sixItems)) Dashboard.initial World.fresh).view.items
        = .arr sixItems ∧
      (Dashboard.render localHost
        (Dashboard.onRec localHost (.ok (.arr sixItems)) Dashboard.initial
          World.fresh).view).map (fun v => v.entries.length) = .ok 6 := by
  refine ⟨rfl, rfl, rfl, rfl⟩

/-- C9 (amended): `recommend(client_id, student_uid, top_k)` settles exactly as
its request does, returning the response as it came: the client cuts nothing,
so the result has at most `top_k` items exactly when the response has.  After
a Recommend action the Dashboard holds the returned list whole, and a render
of it that succeeds has as many entries as the list has items. -/
theorem recommend_returns_response (H : Host) (c s k : JSVal) (settle : Except JSVal JSVal)
    (st : Dashboard) (w : World) (items : List JSVal) :
    (recommend H c s k settle w).1 = settle ∧
      (Dashboard.onRec H (.ok (.arr items)) st w).view.items = .arr items ∧
      ∀ v : DashboardView,
        Dashboard.render H (Dashboard.onRec H (.ok (.arr items)) st w).view = .ok v →
          v.entries.length = items.length := by
  refine ⟨rfl, rfl, ?_⟩
  intro v hv
  simp only [Dashboard.onRec, recommend, axiosRequest, Dashboard.render] at hv
  cases he : Dashboard.renderItems H items with
  | error e => rw [he] at hv; cases hv
  | ok elements =>
    simp only [he] at hv
    cases hc : Dashboard.cards H elements with
    | error e => simp only [hc] at hv; cases hv
    | ok cards =>
      simp only [hc, Except.ok.injEq] at hv
      subst hv
      exact (cards_length H elements cards hc).trans (renderItems_length H items elements he)

/-! ## Score formatting -/

/-- C6, as stated, fails: an item whose score is the Number `Infinity` (what
`JSON.parse` gives for `1e999`) renders the score text `Infinity`, which has
no decimal point and no three digits after one. -/
theorem score_infinity_no_decimals :
    (Dashboard.renderItem localHost
        (.obj [("job_uid", .str "J1"), ("score", .num (.inf false))])).map (fun en => en.score)
      = .ok "Infinity" ∧
      ¬ ('.' ∈ "Infinity".data) := by
  refine ⟨rfl, by decide⟩

/-- C6 (amended): for every item whose score is a finite Number of magnitude
below `10^21`, the rendered score text is an optional minus sign (for a
negative score), the decimal digits of `n / 1000`, a point, and exactly three
digits, those of `n % 1000`, where `n` is `1000 * |score|` rounded to the
nearest integer, halves upwards; so the text is `|score|` rounded to three
fractional digits, off by at most `1/2000`. -/
theorem score_three_decimals (H : Host) (neg : Bool) (m : Nat) (e : Int)
    (hlt : magnitude m e < 10 ^ 21) :
    ∃ n : Nat, n = ⌊magnitude m e * 1000 + 1 / 2⌋₊ ∧
      |(n : ℚ) / 1000 - magnitude m e| ≤ 1 / 2000 ∧
      callToFixed H (.num (.fin neg m e)) 3
        = .ok ((if neg ∧ m ≠ 0 then "-" else "") ++ Nat.repr (n / 1000) ++ "." ++
            String.mk [Nat.digitChar (n / 100 % 10), Nat.digitChar (n / 10 % 10),
              Nat.digitChar (n % 10)]) ∧
      ∀ props : List (String × JSVal), props.lookup "score" = some (.num (.fin neg m e)) →
        (Dashboard.renderItem H (.obj props)).map (fun en => en.score)
          = .ok ((if neg ∧ m ≠ 0 then "-" else "") ++ Nat.repr (n / 1000) ++ "." ++
              String.mk [Nat.digitChar (n / 100 % 10), Nat.digitChar (n / 10 % 10),
                Nat.digitChar (n % 10)]) := by
  obtain ⟨n, hn, hdist, ht⟩ := toFixed_three H neg m e hlt
  exact ⟨n, hn, hdist, ht, fun props hs => renderItem_score H props _ _ hs ht⟩

/-- The score `0.83333`, the binary64 `7505969354953311 * 2^-53`, renders as
`0.833`. -/
theorem score_083333 :
    magnitude 7505969354953311 (-53) < 10 ^ 21 ∧
      callToFixed localHost (.num (.fin false 7505969354953311 (-53))) 3 = .ok "0.833" := by
  have h : magnitude 7505969354953311 (-53) < 10 ^ 21 := by
    norm_num [magnitude]
  obtain ⟨n, hn, -, ht, -⟩ := score_three_decimals localHost false 7505969354953311 (-53) h
  have h833 : n = 833 := by
    rw [hn, Nat.floor_eq_iff (by norm_num [magnitude])]
    norm_num [magnitude]
  subst h833
  exact ⟨h, ht⟩

end Sie
